import Mathlib

/-!
Verification of the nextcord application-command engine
(`nextcord/application_command.py`, `nextcord/ext/application_checks/core.py`)
against its natural-language specification.

The development shallowly embeds the data model and the operations of the
source: Python dictionaries/lists become the mutual inductive `DVal`, the
payload differ (`is_payload_valid`, `deep_dictionary_check`,
`check_dictionary_values`), payload synthesis (`get_payload` and the
`payload` properties), the check/hook pipeline (`can_run`,
`invoke_callback_with_hooks`), slash routing (`call_slash`), option
construction (`SlashCommandOption.__init__`), callback binding
(`from_callback`), registration responses (`parse_discord_response`) and
the concurrency-gated `prepare` are all translated function by function.
-/

namespace Nextcord

/-! ## Python values

A Python value as it appears in command payloads and interaction data:
strings, ints, bools, `None`, lists and (insertion-ordered) dicts.
`res kind id` stands for a domain entity (channel/user/role/attachment)
obtained from the cache or the resolved blobs by its id; the cache itself
is an external collaborator of the modelled code.  The type is a mutual
inductive (rather than nesting `List`) so that every function on it is
structurally recursive and computable by `rfl`/`decide`. -/

mutual

inductive DVal where
  | str (s : String)
  | int (n : Int)
  | bool (b : Bool)
  | null
  | res (kind : String) (id : Int)
  | arr (l : DArr)
  | obj (d : DObj)

inductive DArr where
  | nil
  | cons (hd : DVal) (tl : DArr)

inductive DObj where
  | nil
  | cons (k : String) (v : DVal) (tl : DObj)

end

namespace DArr

/-- Convert to an ordinary list (used to state permutation facts). -/
def toList : DArr → List DVal
  | .nil => []
  | .cons hd tl => hd :: toList tl

/-- Build from an ordinary list. -/
def ofList : List DVal → DArr
  | [] => .nil
  | hd :: tl => .cons hd (ofList tl)

/-- Python `len` on a list. -/
def length : DArr → Nat
  | .nil => 0
  | .cons _ tl => length tl + 1

end DArr

namespace DObj

/-- Python `d.get(k)`: the value stored under the first occurrence of `k`. -/
def get? (d : DObj) (k : String) : Option DVal :=
  match d with
  | .nil => none
  | .cons k2 v tl => if k2 == k then some v else get? tl k

/-- The keys of the dict, in insertion order. -/
def keys : DObj → List String
  | .nil => []
  | .cons k _ tl => k :: keys tl

/-- All `(key, value)` entries, in insertion order. -/
def entries : DObj → List (String × DVal)
  | .nil => []
  | .cons k v tl => (k, v) :: entries tl

/-- Python `d[k] = v`: replace the value at an existing key in place,
otherwise append the key at the end. -/
def set (d : DObj) (k : String) (v : DVal) : DObj :=
  match d with
  | .nil => .cons k v .nil
  | .cons k2 v2 tl => if k2 == k then .cons k2 v tl else .cons k2 v2 (set tl k v)

end DObj

/-- Python `d.get(k, default)`. -/
def getOr (d : DObj) (k : String) (dflt : DVal) : DVal :=
  (d.get? k).getD dflt

/-- Python `d.get(k)` / `d.get(k, None)`. -/
def getOrNone (d : DObj) (k : String) : DVal :=
  getOr d k .null

/-! ## Python equality

`pyEq` is Python's `==` on the values above: structural on atoms and
lists, order-insensitive on dicts (`d1 == d2` iff they have the same
length and every entry of `d1` is present in `d2` with an equal value,
which is CPython's comparison for dicts, whose keys are unique).  Python
`bool` is an `int` subclass, so `True == 1`. -/

mutual

def pyEq : DVal → DVal → Bool
  | .str a, .str b => a == b
  | .int a, .int b => a == b
  | .bool a, .bool b => a == b
  | .bool a, .int b => (if a then (1 : Int) else 0) == b
  | .int a, .bool b => a == (if b then (1 : Int) else 0)
  | .null, .null => true
  | .res k1 i1, .res k2 i2 => k1 == k2 && i1 == i2
  | .arr a, .arr b => pyEqArr a b
  | .obj a, .obj b => pyEqObjLen a b && pyEqObjSub a b
  | _, _ => false
  termination_by structural a _ => a

def pyEqArr : DArr → DArr → Bool
  | .nil, .nil => true
  | .cons a atl, .cons b btl => pyEq a b && pyEqArr atl btl
  | _, _ => false
  termination_by structural a _ => a

def pyEqObjLen : DObj → DObj → Bool
  | .nil, .nil => true
  | .cons _ _ atl, .cons _ _ btl => pyEqObjLen atl btl
  | _, _ => false
  termination_by structural a _ => a

def pyEqObjSub : DObj → DObj → Bool
  | .nil, _ => true
  | .cons k v tl, b =>
    (match b.get? k with
     | some w => pyEq v w
     | none => false)
    && pyEqObjSub tl b
  termination_by structural a _ => a

end

/-- Python `==` on two dicts: same length and every entry of the first is
present with an equal value in the second. -/
def pyEqObj (a b : DObj) : Bool :=
  pyEqObjLen a b && pyEqObjSub a b

/-- Python `dict_keys` equality (`dict1.keys() != dict2.keys()` in the
source): the key views compare as sets. -/
def keysSetEq (d1 d2 : DObj) : Bool :=
  d1.keys.all (fun k => d2.keys.contains k) && d2.keys.all (fun k => d1.keys.contains k)

/-! ## The payload differ (source: `application_command.py`)

`deep_dictionary_check` (lines 3452-3463): all keys and values between two
dicts must be equal, recursing on nested dict values.  A non-dict value
(including a nested options *list*) is compared with plain Python `==`.
When the left value is a dict and the right one is not, the source raises
`AttributeError` inside the recursive call; that situation cannot pass, and
is modelled as `false`. -/

mutual

/-- The comparison `deep_dictionary_check` performs on one value pair:
recurse when the left value is a dict (`AttributeError`, modelled `false`,
when only the left one is), plain Python `==` otherwise. -/
def ddcValue : DVal → DVal → Bool
  | .obj m1, .obj m2 => keysSetEq m1 m2 && ddcEntries m1 m2
  | .obj _, _ => false
  | v1, v2 => pyEq v1 v2
  termination_by structural a _ => a

/-- The `for key in dict1` loop of `deep_dictionary_check`. -/
def ddcEntries : DObj → DObj → Bool
  | .nil, _ => true
  | .cons k v1 tl, d2 =>
    (match d2.get? k with
     | none => false
     | some v2 => ddcValue v1 v2)
    && ddcEntries tl d2
  termination_by structural a _ => a

end

def deep_dictionary_check (d1 d2 : DObj) : Bool :=
  keysSetEq d1 d2 && ddcEntries d1 d2

/-- Source `check_dictionary_values` (lines 3425-3449): for each keyword,
`dict1.get(keyword, None)` must equal `dict2.get(keyword, None)`. -/
def check_dictionary_values (d1 d2 : DObj) : List String → Bool
  | [] => true
  | k :: rest => pyEq (getOrNone d1 k) (getOrNone d2 k) && check_dictionary_values d1 d2 rest

/-- Python `int(x)`.  On a non-numeric string or a non-int value the source
raises (`ValueError`/`TypeError`); those cases are modelled as `0`, and are
never produced by the payloads under study. -/
def toPyInt : DVal → Int
  | .int n => n
  | .bool b => if b then 1 else 0
  | .str s => (s.toInt?).getD 0
  | _ => 0

/-- View a value as a dict; the payload differ only ever does this to
options-array elements, which are dicts in every payload considered. -/
def asObj : DVal → DObj
  | .obj d => d
  | _ => .nil

/-- The `options` array of a payload: `payload.get("options", [])`. -/
def getOpts (d : DObj) : List DVal :=
  match d.get? "options" with
  | some (.arr l) => l.toList
  | _ => []

/-- The inner loop of `is_payload_valid` (lines 1204-1214): scan the remote
options for the first entry with the same `name` as the local option
(`break` stops at the first match) and deep-compare against it. -/
def findMatch (co : DObj) : List DVal → Option DObj
  | [] => none
  | ro :: rest =>
    let rd := asObj ro
    if pyEq (getOrNone co "name") (getOrNone rd "name") then some rd
    else findMatch co rest

/-- The outer loop of `is_payload_valid` (lines 1203-1216): every local
option must find a same-named remote option that deep-compares equal;
a local option with no matching remote name fails. -/
def validOptions (rawOpts : List DVal) : List DVal → Bool
  | [] => true
  | co :: rest =>
    let cd := asObj co
    (match findMatch cd rawOpts with
     | some rd => deep_dictionary_check cd rd
     | none => false)
    && validOptions rawOpts rest

/-- Source `BaseApplicationCommand.is_payload_valid` (lines 1195-1217),
with the locally synthesized payload already computed:
guild id check, top-level field check, option-count check, then the
name-keyed scan over the top-level options. -/
def is_payload_valid (cmd_payload raw_payload : DObj) : Bool :=
  pyEq (getOr cmd_payload "guild_id" (.int 0))
    (.int (toPyInt (getOr raw_payload "guild_id" (.int 0))))
  && check_dictionary_values cmd_payload raw_payload ["description", "type", "name"]
  && ((getOpts cmd_payload).length == (getOpts raw_payload).length)
  && validOptions (getOpts raw_payload) (getOpts cmd_payload)

/-! ## Payload synthesis (source: `application_command.py`)

The model of the option/command state after construction, and the payload
builders.  Numeric option values (`min_value`/`max_value`) are modelled as
integers; their exact numeric type plays no role in the differ. -/

/-- Conditionally add a key (the `if <truthy>: ret[k] = v` pattern used by
every payload builder). -/
def maybeCons (b : Bool) (k : String) (v : DVal) (tl : DObj) : DObj :=
  if b then .cons k v tl else tl

/-- Add a key when the optional value is present
(the `if self.x is not MISSING: ret[k] = self.x` pattern). -/
def optIntCons (x : Option Int) (k : String) (tl : DObj) : DObj :=
  match x with
  | some n => .cons k (.int n) tl
  | none => tl

/-- A choice value is a string, an int or a float; floats are not used by
the payloads studied here. -/
inductive ChoiceVal where
  | s (v : String)
  | i (v : Int)

def ChoiceVal.toDVal : ChoiceVal → DVal
  | .s v => .str v
  | .i v => .int v

/-- One entry of the `choices` payload list:
`{"name": str(key), "value": value}` (line 206). -/
def choicePayload : String × ChoiceVal → DVal
  | (n, v) => .obj (.cons "name" (.str n) (.cons "value" v.toDVal .nil))

/-- The state of a `SlashCommandOption` that the payload builder reads:
type value, name, effective description, required flag, choices,
channel-type filter, numeric bounds, autocomplete flag. -/
structure OptModel where
  type : Int
  name : String
  descr : String
  required : Bool
  choices : List (String × ChoiceVal)
  channel_types : List Int
  min_value : Option Int
  max_value : Option Int
  autocomplete : Bool

/-- Source `ApplicationCommandOption.payload` (lines 196-218): the three
base keys, then each optional key added only when its attribute is truthy
(`min_value`/`max_value`: when not `MISSING`). -/
def OptModel.payload (o : OptModel) : DObj :=
  .cons "type" (.int o.type) (.cons "name" (.str o.name) (.cons "description" (.str o.descr)
    (maybeCons o.required "required" (.bool o.required)
      (maybeCons (!o.choices.isEmpty) "choices"
          (.arr (DArr.ofList (o.choices.map choicePayload)))
        (maybeCons (!o.channel_types.isEmpty) "channel_types"
            (.arr (DArr.ofList (o.channel_types.map DVal.int)))
          (optIntCons o.min_value "min_value"
            (optIntCons o.max_value "max_value"
              (maybeCons o.autocomplete "autocomplete" (.bool o.autocomplete) .nil))))))))

mutual

/-- A `SlashApplicationSubcommand`: its option-type value (sub_command or
sub_command_group), name, description, children and options.  Mutual with
its child list so that recursion over it stays structural. -/
inductive SubNode where
  | mk (type : Int) (name : String) (descr : String)
       (children : SubForest) (options : List OptModel)

inductive SubForest where
  | nil
  | cons (hd : SubNode) (tl : SubForest)

end

mutual

/-- Source `SlashApplicationSubcommand.payload` (lines 1351-1362): base
keys, then `options` from the children if any, else from the options if
any (a leaf without options gets no `options` key). -/
def SubNode.payload : SubNode → DObj
  | .mk ty name descr children opts =>
    .cons "type" (.int ty) (.cons "name" (.str name) (.cons "description" (.str descr)
      (match children with
       | .cons hd tl =>
         .cons "options" (.arr (SubForest.payloads (.cons hd tl))) .nil
       | .nil =>
         if opts.isEmpty then .nil
         else .cons "options" (.arr (DArr.ofList (opts.map (fun o => .obj o.payload)))) .nil)))
  termination_by structural x => x

def SubForest.payloads : SubForest → DArr
  | .nil => .nil
  | .cons hd tl => .cons (.obj (SubNode.payload hd)) (SubForest.payloads tl)
  termination_by structural x => x

end

/-- The state of a `SlashApplicationCommand` that payload synthesis reads. -/
structure SlashCmdModel where
  type : Int
  name : String
  descr : String
  default_member_permissions : Option Int
  dm_permission : Bool
  children : SubForest
  options : List OptModel

/-- Python truthiness of the `guild_id` argument (`if guild_id:`, line
1149): present and nonzero. -/
def guildTruthy : Option Int → Bool
  | some n => n != 0
  | none => false

/-- The top-level options array of the synthesized payload: child payloads
when the command has children, else the option payloads (lines 1428-1432). -/
def SlashCmdModel.topOptions (c : SlashCmdModel) : List DVal :=
  match c.children with
  | .cons hd tl => (SubForest.payloads (.cons hd tl)).toList
  | .nil => c.options.map (fun o => .obj o.payload)

/-- Source `BaseApplicationCommand.get_payload` (lines 1142-1158) combined
with the `SlashApplicationCommand.get_payload` override (lines 1426-1433):
base keys, then `guild_id` when truthy, `default_member_permissions` as a
stringified value when set, `dm_permission` when true, and always an
`options` key. -/
def SlashCmdModel.get_payload (c : SlashCmdModel) (guild_id : Option Int) : DObj :=
  .cons "type" (.int c.type) (.cons "name" (.str c.name) (.cons "description" (.str c.descr)
    (maybeCons (guildTruthy guild_id) "guild_id" (.int (guild_id.getD 0))
      (maybeCons c.default_member_permissions.isSome "default_member_permissions"
          (.str (toString (c.default_member_permissions.getD 0)))
        (maybeCons c.dm_permission "dm_permission" (.bool c.dm_permission)
          (.cons "options" (.arr (DArr.ofList c.topOptions)) .nil))))))

/-! ## Well-formedness and reflexivity of the differ

Python dicts cannot hold duplicate keys; `WFv` states that invariant for
every dict nested in a value.  Under it, Python `==` and
`deep_dictionary_check` are reflexive. -/

/-- Keys of a dict are pairwise distinct. -/
def keysNoDupB : DObj → Bool
  | .nil => true
  | .cons k _ tl => !((DObj.keys tl).contains k) && keysNoDupB tl

mutual

def WFv : DVal → Bool
  | .arr l => WFarr l
  | .obj d => keysNoDupB d && WFvals d
  | _ => true
  termination_by structural a => a

def WFarr : DArr → Bool
  | .nil => true
  | .cons hd tl => WFv hd && WFarr tl
  termination_by structural a => a

def WFvals : DObj → Bool
  | .nil => true
  | .cons _ v tl => WFv v && WFvals tl
  termination_by structural a => a

end

theorem all_contains_self (l : List String) : (l.all fun k => l.contains k) = true := by
  simp [List.all_eq_true]

theorem keysSetEq_refl (d : DObj) : keysSetEq d d = true := by
  simp [keysSetEq, all_contains_self]

theorem mem_keys_of_mem_entries : (d : DObj) → {k : String} → {v : DVal} →
    (k, v) ∈ DObj.entries d → k ∈ DObj.keys d
  | .nil, _, _, h => by simp [DObj.entries] at h
  | .cons k2 v2 tl, k, v, h => by
    simp only [DObj.entries, List.mem_cons, Prod.mk.injEq] at h
    simp only [DObj.keys, List.mem_cons]
    rcases h with ⟨hk, _⟩ | h
    · exact Or.inl hk
    · exact Or.inr (mem_keys_of_mem_entries tl h)
  termination_by structural d => d

theorem get?_of_mem_entries : (d : DObj) → keysNoDupB d = true → {k : String} → {v : DVal} →
    (k, v) ∈ DObj.entries d → DObj.get? d k = some v
  | .nil, _, _, _, h => by simp [DObj.entries] at h
  | .cons k2 v2 tl, hnd, k, v, h => by
    simp only [keysNoDupB, Bool.and_eq_true, Bool.not_eq_true'] at hnd
    simp only [DObj.entries, List.mem_cons, Prod.mk.injEq] at h
    rcases h with ⟨hk, hv⟩ | h
    · subst hk hv
      simp [DObj.get?]
    · have hkm : k ∈ DObj.keys tl := mem_keys_of_mem_entries tl h
      have hne : k2 ≠ k := by
        intro heq
        subst heq
        have hc : (DObj.keys tl).contains k2 = true := List.elem_eq_true_of_mem hkm
        rw [hnd.1] at hc
        exact Bool.false_ne_true hc
      simp only [DObj.get?, beq_iff_eq, if_neg hne]
      exact get?_of_mem_entries tl hnd.2 h
  termination_by structural d => d

theorem WFvals_mem : (d : DObj) → WFvals d = true → {k : String} → {v : DVal} →
    (k, v) ∈ DObj.entries d → WFv v = true
  | .nil, _, _, _, hm => by simp [DObj.entries] at hm
  | .cons k2 v2 tl, h, k, v, hm => by
    have h' : WFv v2 = true ∧ WFvals tl = true := by
      simpa [WFvals, Bool.and_eq_true] using h
    simp only [DObj.entries, List.mem_cons, Prod.mk.injEq] at hm
    rcases hm with ⟨_, hv⟩ | hm
    · subst hv; exact h'.1
    · exact WFvals_mem tl h'.2 hm
  termination_by structural d => d

theorem pyEqObjLen_refl : (d : DObj) → pyEqObjLen d d = true
  | .nil => by simp [pyEqObjLen]
  | .cons k v tl => by
    rw [show pyEqObjLen (.cons k v tl) (.cons k v tl) = pyEqObjLen tl tl from rfl]
    exact pyEqObjLen_refl tl
  termination_by structural d => d

mutual

theorem pyEq_refl : (v : DVal) → WFv v = true → pyEq v v = true
  | .str s, _ => by simp [pyEq]
  | .int n, _ => by simp [pyEq]
  | .bool b, _ => by simp [pyEq]
  | .null, _ => by simp [pyEq]
  | .res k i, _ => by simp [pyEq]
  | .arr l, h => by
    rw [show pyEq (.arr l) (.arr l) = pyEqArr l l from rfl]
    exact pyEqArr_refl l (by simpa [WFv] using h)
  | .obj d, h => by
    have h' : keysNoDupB d = true ∧ WFvals d = true := by
      simpa [WFv, Bool.and_eq_true] using h
    rw [show pyEq (.obj d) (.obj d) = (pyEqObjLen d d && pyEqObjSub d d) from rfl]
    rw [pyEqObjLen_refl d,
      pyEqObjSub_of_entries d d
        (fun p hp => ⟨get?_of_mem_entries d h'.1 hp, WFvals_mem d h'.2 hp⟩)]
    rfl
  termination_by structural v => v

theorem pyEqArr_refl : (l : DArr) → WFarr l = true → pyEqArr l l = true
  | .nil, _ => by simp [pyEqArr]
  | .cons hd tl, h => by
    have h' : WFv hd = true ∧ WFarr tl = true := by
      simpa [WFarr, Bool.and_eq_true] using h
    rw [show pyEqArr (.cons hd tl) (.cons hd tl) = (pyEq hd hd && pyEqArr tl tl) from rfl]
    rw [pyEq_refl hd h'.1, pyEqArr_refl tl h'.2]
    rfl
  termination_by structural l => l

theorem pyEqObjSub_of_entries : (sub d : DObj) →
    (∀ p ∈ DObj.entries sub, d.get? p.1 = some p.2 ∧ WFv p.2 = true) →
    pyEqObjSub sub d = true
  | .nil, _, _ => by simp [pyEqObjSub]
  | .cons k v tl, d, h => by
    have hh := h (k, v) (by simp [DObj.entries])
    have ht : ∀ p ∈ DObj.entries tl, d.get? p.1 = some p.2 ∧ WFv p.2 = true :=
      fun p hp => h p (by simp only [DObj.entries, List.mem_cons]; exact Or.inr hp)
    rw [show pyEqObjSub (.cons k v tl) d
        = ((match d.get? k with | some w => pyEq v w | none => false) && pyEqObjSub tl d)
      from rfl]
    rw [hh.1, pyEqObjSub_of_entries tl d ht]
    simpa using pyEq_refl v hh.2
  termination_by structural sub => sub

end

mutual

theorem ddcValue_refl : (v : DVal) → WFv v = true → ddcValue v v = true
  | .obj m1, h => by
    have h' : keysNoDupB m1 = true ∧ WFvals m1 = true := by
      simpa [WFv, Bool.and_eq_true] using h
    rw [show ddcValue (.obj m1) (.obj m1) = (keysSetEq m1 m1 && ddcEntries m1 m1) from rfl]
    rw [keysSetEq_refl m1,
      ddcEntries_of_entries m1 m1
        (fun p hp => ⟨get?_of_mem_entries m1 h'.1 hp, WFvals_mem m1 h'.2 hp⟩)]
    rfl
  | .str s, h => by
    rw [show ddcValue (.str s) (.str s) = pyEq (.str s) (.str s) from rfl]
    exact pyEq_refl _ h
  | .int n, h => by
    rw [show ddcValue (.int n) (.int n) = pyEq (.int n) (.int n) from rfl]
    exact pyEq_refl _ h
  | .bool b, h => by
    rw [show ddcValue (.bool b) (.bool b) = pyEq (.bool b) (.bool b) from rfl]
    exact pyEq_refl _ h
  | .null, h => by
    rw [show ddcValue .null .null = pyEq .null .null from rfl]
    exact pyEq_refl _ h
  | .res k i, h => by
    rw [show ddcValue (.res k i) (.res k i) = pyEq (.res k i) (.res k i) from rfl]
    exact pyEq_refl _ h
  | .arr l, h => by
    rw [show ddcValue (.arr l) (.arr l) = pyEq (.arr l) (.arr l) from rfl]
    exact pyEq_refl _ h
  termination_by structural v => v

theorem ddcEntries_of_entries : (sub d : DObj) →
    (∀ p ∈ DObj.entries sub, d.get? p.1 = some p.2 ∧ WFv p.2 = true) →
    ddcEntries sub d = true
  | .nil, _, _ => by simp [ddcEntries]
  | .cons k v tl, d, h => by
    have hh := h (k, v) (by simp [DObj.entries])
    have ht : ∀ p ∈ DObj.entries tl, d.get? p.1 = some p.2 ∧ WFv p.2 = true :=
      fun p hp => h p (by simp only [DObj.entries, List.mem_cons]; exact Or.inr hp)
    rw [show ddcEntries (.cons k v tl) d
        = ((match d.get? k with
            | none => false
            | some v2 => ddcValue v v2) && ddcEntries tl d)
      from rfl]
    rw [hh.1, ddcEntries_of_entries tl d ht]
    simpa using ddcValue_refl v hh.2
  termination_by structural sub => sub

end

theorem deep_dictionary_check_refl (d : DObj) (h : WFv (.obj d) = true) :
    deep_dictionary_check d d = true := by
  have h' : keysNoDupB d = true ∧ WFvals d = true := by
    simpa [WFv, Bool.and_eq_true] using h
  rw [deep_dictionary_check, keysSetEq_refl d,
    ddcEntries_of_entries d d
      (fun p hp => ⟨get?_of_mem_entries d h'.1 hp, WFvals_mem d h'.2 hp⟩)]
  rfl

/-! ## Name-keyed scan under permutations -/

/-- The `name` value of an options-array element (`cmd_option["name"]`). -/
def nameOf (o : DVal) : DVal := getOrNone (asObj o) "name"

theorem findMatch_self : (l : List DVal) → (co : DVal) → co ∈ l →
    pyEq (nameOf co) (nameOf co) = true →
    (∀ o ∈ l, pyEq (nameOf co) (nameOf o) = true → o = co) →
    findMatch (asObj co) l = some (asObj co)
  | [], co, hm, _, _ => by simp at hm
  | ro :: rest, co, hm, hself, huniq => by
    by_cases hcond : pyEq (getOrNone (asObj co) "name") (getOrNone (asObj ro) "name") = true
    · have hro : ro = co := huniq ro (by simp) hcond
      subst hro
      simp [findMatch, hcond]
    · have hne : co ≠ ro := fun he => hcond (by rw [← he]; exact hself)
      have hm' : co ∈ rest := by
        rcases List.mem_cons.mp hm with h | h
        · exact absurd h hne
        · exact h
      simp only [findMatch, if_neg hcond]
      exact findMatch_self rest co hm' hself (fun o ho hpy => huniq o (by simp [ho]) hpy)

/-- Reflexivity of the deep check on an options-array element. -/
theorem ddc_asObj_refl : (co : DVal) → WFv co = true →
    deep_dictionary_check (asObj co) (asObj co) = true
  | .obj d, h => deep_dictionary_check_refl d h
  | .str _, _ => rfl
  | .int _, _ => rfl
  | .bool _, _ => rfl
  | .null, _ => rfl
  | .res _ _, _ => rfl
  | .arr _, _ => rfl

theorem validOptions_of : (raws cmds : List DVal) →
    (∀ co ∈ cmds, co ∈ raws ∧ WFv co = true ∧ pyEq (nameOf co) (nameOf co) = true ∧
      (∀ o ∈ raws, pyEq (nameOf co) (nameOf o) = true → o = co)) →
    validOptions raws cmds = true
  | _, [], _ => by simp [validOptions]
  | raws, co :: rest, h => by
    obtain ⟨hmem, hwf, hself, huniq⟩ := h co (by simp)
    simp only [validOptions]
    rw [findMatch_self raws co hmem hself huniq]
    show (deep_dictionary_check (asObj co) (asObj co) && validOptions raws rest) = true
    rw [ddc_asObj_refl co hwf, validOptions_of raws rest (fun o ho => h o (by simp [ho]))]
    rfl

/-- Executable pairwise distinctness of a list of names. -/
def strNodup : List String → Bool
  | [] => true
  | s :: rest => !(rest.contains s) && strNodup rest

theorem strNodup_nodup : ∀ l : List String, strNodup l = true → l.Nodup := by
  intro l
  induction l with
  | nil => intro _; exact List.nodup_nil
  | cons s rest ih =>
    intro h
    have h' : (rest.contains s) = false ∧ strNodup rest = true := by
      simpa [strNodup, Bool.and_eq_true, Bool.not_eq_true'] using h
    refine List.nodup_cons.mpr ⟨?_, ih h'.2⟩
    intro hmem
    have hc : rest.contains s = true := List.elem_eq_true_of_mem hmem
    rw [h'.1] at hc
    exact Bool.false_ne_true hc

/-- Elements of a synthesized, distinctly named payload list satisfy all the
side conditions of `validOptions_of` with respect to any permutation of the
list. -/
theorem payloadListFacts {α : Type} (f : α → DVal) (nm : α → String)
    (hn : ∀ a, nameOf (f a) = .str (nm a))
    (hwf : ∀ a, WFv (f a) = true)
    (xs : List α) (hnd : (xs.map nm).Nodup) (l' : List DVal)
    (hperm : l'.Perm (xs.map f)) :
    ∀ co ∈ xs.map f, co ∈ l' ∧ WFv co = true ∧ pyEq (nameOf co) (nameOf co) = true ∧
      (∀ o ∈ l', pyEq (nameOf co) (nameOf o) = true → o = co) := by
  intro co hco
  obtain ⟨a, ha, rfl⟩ := List.mem_map.mp hco
  refine ⟨hperm.mem_iff.mpr hco, hwf a, by simp [hn a, pyEq], ?_⟩
  intro o ho hname
  obtain ⟨b, hb, rfl⟩ := List.mem_map.mp (hperm.mem_iff.mp ho)
  rw [hn a, hn b] at hname
  have hnmeq : nm b = nm a := by
    have : nm a = nm b := by simpa [pyEq] using hname
    exact this.symm
  have hab : b = a := List.inj_on_of_nodup_map hnd hb ha hnmeq
  rw [hab]

/-! ## Well-formedness of synthesized payloads -/

/-- Every key of `d` is one of `L`. -/
def KIn (d : DObj) (L : List String) : Prop := ∀ k ∈ DObj.keys d, k ∈ L

theorem kin_nil (L : List String) : KIn .nil L := by
  intro k hk
  simp [DObj.keys] at hk

theorem kin_cons {tl : DObj} {L : List String} (k : String) (v : DVal)
    (h : KIn tl L) : KIn (.cons k v tl) (k :: L) := by
  intro k' hk'
  simp only [DObj.keys, List.mem_cons] at hk'
  rcases hk' with hk' | hk'
  · exact List.mem_cons.mpr (Or.inl hk')
  · exact List.mem_cons.mpr (Or.inr (h k' hk'))

theorem kin_maybeCons {tl : DObj} {L : List String} (b : Bool) (k : String) (v : DVal)
    (h : KIn tl L) : KIn (maybeCons b k v tl) (k :: L) := by
  cases b
  · intro k' hk'
    exact List.mem_cons.mpr (Or.inr (h k' hk'))
  · exact kin_cons k v h

theorem kin_optIntCons {tl : DObj} {L : List String} (x : Option Int) (k : String)
    (h : KIn tl L) : KIn (optIntCons x k tl) (k :: L) := by
  cases x with
  | none =>
    intro k' hk'
    exact List.mem_cons.mpr (Or.inr (h k' hk'))
  | some n => exact kin_cons k (.int n) h

theorem keysNoDupB_cons {tl : DObj} (L : List String) (k : String) (v : DVal)
    (hnd : keysNoDupB tl = true) (hin : KIn tl L) (hk : k ∉ L) :
    keysNoDupB (.cons k v tl) = true := by
  have hc : (DObj.keys tl).contains k = false := by
    cases hcc : (DObj.keys tl).contains k
    · rfl
    · exact absurd (hk (hin k (List.mem_of_elem_eq_true hcc))) (by simp)
  simp only [keysNoDupB, Bool.and_eq_true, Bool.not_eq_true']
  exact ⟨hc, hnd⟩

theorem keysNoDupB_maybeCons {tl : DObj} (L : List String) (b : Bool) (k : String) (v : DVal)
    (hnd : keysNoDupB tl = true) (hin : KIn tl L) (hk : k ∉ L) :
    keysNoDupB (maybeCons b k v tl) = true := by
  cases b
  · exact hnd
  · exact keysNoDupB_cons L k v hnd hin hk

theorem keysNoDupB_optIntCons {tl : DObj} (L : List String) (x : Option Int) (k : String)
    (hnd : keysNoDupB tl = true) (hin : KIn tl L) (hk : k ∉ L) :
    keysNoDupB (optIntCons x k tl) = true := by
  cases x with
  | none => exact hnd
  | some n => exact keysNoDupB_cons L k (.int n) hnd hin hk

theorem WFvals_cons {tl : DObj} (k : String) {v : DVal}
    (hv : WFv v = true) (ht : WFvals tl = true) : WFvals (.cons k v tl) = true := by
  simp [WFvals, hv, ht]

theorem WFvals_maybeCons {tl : DObj} (b : Bool) (k : String) {v : DVal}
    (hv : WFv v = true) (ht : WFvals tl = true) : WFvals (maybeCons b k v tl) = true := by
  cases b
  · exact ht
  · exact WFvals_cons k hv ht

theorem WFvals_optIntCons {tl : DObj} (x : Option Int) (k : String)
    (ht : WFvals tl = true) : WFvals (optIntCons x k tl) = true := by
  cases x with
  | none => exact ht
  | some n => exact WFvals_cons k (by simp [WFv]) ht

theorem WFv_choicePayload (p : String × ChoiceVal) : WFv (choicePayload p) = true := by
  rcases p with ⟨n, v⟩
  cases v <;> rfl

theorem WFarr_choices : ∀ cl : List (String × ChoiceVal),
    WFarr (DArr.ofList (cl.map choicePayload)) = true := by
  intro cl
  induction cl with
  | nil => rfl
  | cons hd tl ih =>
    simp only [List.map_cons, DArr.ofList]
    rw [show WFarr (.cons (choicePayload hd) (DArr.ofList (tl.map choicePayload)))
        = (WFv (choicePayload hd) && WFarr (DArr.ofList (tl.map choicePayload))) from rfl]
    rw [WFv_choicePayload hd, ih]
    rfl

theorem WFarr_ints : ∀ cl : List Int, WFarr (DArr.ofList (cl.map DVal.int)) = true := by
  intro cl
  induction cl with
  | nil => rfl
  | cons hd tl ih =>
    simp only [List.map_cons, DArr.ofList]
    rw [show WFarr (.cons (.int hd) (DArr.ofList (tl.map DVal.int)))
        = (WFv (.int hd) && WFarr (DArr.ofList (tl.map DVal.int))) from rfl]
    rw [ih]
    rfl

/-- A synthesized option payload is a well-formed dict. -/
theorem WFopt (o : OptModel) : WFv (.obj o.payload) = true := by
  have k0 : KIn (maybeCons o.autocomplete "autocomplete" (.bool o.autocomplete) .nil)
      ["autocomplete"] := kin_maybeCons _ _ _ (kin_nil _)
  have k1 := kin_optIntCons o.max_value "max_value" k0
  have k2 := kin_optIntCons o.min_value "min_value" k1
  have k3 := kin_maybeCons (!o.channel_types.isEmpty) "channel_types"
    (.arr (DArr.ofList (o.channel_types.map DVal.int))) k2
  have k4 := kin_maybeCons (!o.choices.isEmpty) "choices"
    (.arr (DArr.ofList (o.choices.map choicePayload))) k3
  have k5 := kin_maybeCons o.required "required" (.bool o.required) k4
  have n0 : keysNoDupB (maybeCons o.autocomplete "autocomplete" (.bool o.autocomplete) .nil)
      = true := keysNoDupB_maybeCons [] _ _ _ rfl (kin_nil []) (by decide)
  have n1 := keysNoDupB_optIntCons ["autocomplete"] o.max_value "max_value" n0 k0 (by decide)
  have n2 := keysNoDupB_optIntCons ["max_value", "autocomplete"] o.min_value "min_value"
    n1 k1 (by decide)
  have n3 := keysNoDupB_maybeCons ["min_value", "max_value", "autocomplete"]
    (!o.channel_types.isEmpty) "channel_types"
    (.arr (DArr.ofList (o.channel_types.map DVal.int))) n2 k2 (by decide)
  have n4 := keysNoDupB_maybeCons ["channel_types", "min_value", "max_value", "autocomplete"]
    (!o.choices.isEmpty) "choices"
    (.arr (DArr.ofList (o.choices.map choicePayload))) n3 k3 (by decide)
  have n5 := keysNoDupB_maybeCons
    ["choices", "channel_types", "min_value", "max_value", "autocomplete"]
    o.required "required" (.bool o.required) n4 k4 (by decide)
  have k6 := kin_cons "description" (.str o.descr) k5
  have n6 := keysNoDupB_cons
    ["required", "choices", "channel_types", "min_value", "max_value", "autocomplete"]
    "description" (.str o.descr) n5 k5 (by decide)
  have k7 := kin_cons "name" (.str o.name) k6
  have n7 := keysNoDupB_cons
    ["description", "required", "choices", "channel_types", "min_value", "max_value",
      "autocomplete"]
    "name" (.str o.name) n6 k6 (by decide)
  have hnd : keysNoDupB o.payload = true :=
    keysNoDupB_cons
      ["name", "description", "required", "choices", "channel_types", "min_value",
        "max_value", "autocomplete"]
      "type" (.int o.type) n7 k7 (by decide)
  have hv : WFvals o.payload = true := by
    refine WFvals_cons "type" rfl (WFvals_cons "name" rfl (WFvals_cons "description" rfl ?_))
    refine WFvals_maybeCons _ _ rfl ?_
    refine WFvals_maybeCons _ _ ?_ ?_
    · rw [show WFv (.arr (DArr.ofList (o.choices.map choicePayload)))
          = WFarr (DArr.ofList (o.choices.map choicePayload)) from rfl]
      exact WFarr_choices o.choices
    refine WFvals_maybeCons _ _ ?_ ?_
    · rw [show WFv (.arr (DArr.ofList (o.channel_types.map DVal.int)))
          = WFarr (DArr.ofList (o.channel_types.map DVal.int)) from rfl]
      exact WFarr_ints o.channel_types
    exact WFvals_optIntCons _ _ (WFvals_optIntCons _ _ (WFvals_maybeCons _ _ rfl rfl))
  rw [show WFv (.obj o.payload) = (keysNoDupB o.payload && WFvals o.payload) from rfl]
  rw [hnd, hv]
  rfl

theorem WFarr_optPayloads : ∀ opts : List OptModel,
    WFarr (DArr.ofList (opts.map (fun o => DVal.obj o.payload))) = true := by
  intro opts
  induction opts with
  | nil => rfl
  | cons hd tl ih =>
    simp only [List.map_cons, DArr.ofList]
    rw [show WFarr (.cons (.obj hd.payload) (DArr.ofList (tl.map (fun o => DVal.obj o.payload))))
        = (WFv (.obj hd.payload) && WFarr (DArr.ofList (tl.map (fun o => DVal.obj o.payload))))
      from rfl]
    rw [WFopt hd, ih]
    rfl

mutual

/-- A synthesized subcommand payload is a well-formed dict. -/
theorem WFsub : (s : SubNode) → WFv (.obj s.payload) = true
  | .mk ty nm ds .nil opts => by
    cases hoe : opts.isEmpty
    · rw [show SubNode.payload (.mk ty nm ds .nil opts)
          = .cons "type" (.int ty) (.cons "name" (.str nm) (.cons "description" (.str ds)
              (if opts.isEmpty then .nil
               else .cons "options"
                 (.arr (DArr.ofList (opts.map (fun o => DVal.obj o.payload)))) .nil)))
        from rfl]
      rw [hoe]
      simp only [Bool.false_eq_true, if_false]
      rw [show WFv (.obj (.cons "type" (.int ty) (.cons "name" (.str nm)
            (.cons "description" (.str ds)
              (.cons "options"
                (.arr (DArr.ofList (opts.map (fun o => DVal.obj o.payload)))) .nil)))))
          = (keysNoDupB (.cons "type" (.int ty) (.cons "name" (.str nm)
              (.cons "description" (.str ds)
                (.cons "options"
                  (.arr (DArr.ofList (opts.map (fun o => DVal.obj o.payload)))) .nil))))
             && (WFv (.arr (DArr.ofList (opts.map (fun o => DVal.obj o.payload)))) && true))
        from rfl]
      rw [show WFv (.arr (DArr.ofList (opts.map (fun o => DVal.obj o.payload))))
          = WFarr (DArr.ofList (opts.map (fun o => DVal.obj o.payload))) from rfl]
      rw [WFarr_optPayloads opts]
      rfl
    · rw [show SubNode.payload (.mk ty nm ds .nil opts)
          = .cons "type" (.int ty) (.cons "name" (.str nm) (.cons "description" (.str ds)
              (if opts.isEmpty then .nil
               else .cons "options"
                 (.arr (DArr.ofList (opts.map (fun o => DVal.obj o.payload)))) .nil)))
        from rfl]
      rw [hoe]
      rfl
  | .mk ty nm ds (.cons c f) opts => by
    rw [show WFv (.obj (SubNode.payload (.mk ty nm ds (.cons c f) opts)))
        = (WFarr (SubForest.payloads (.cons c f)) && true) from rfl]
    rw [WFforest (.cons c f)]
    rfl
  termination_by structural s => s

theorem WFforest : (f : SubForest) → WFarr (SubForest.payloads f) = true
  | .nil => rfl
  | .cons hd tl => by
    rw [show WFarr (SubForest.payloads (.cons hd tl))
        = (WFv (.obj (SubNode.payload hd)) && WFarr (SubForest.payloads tl)) from rfl]
    rw [WFsub hd, WFforest tl]
    rfl
  termination_by structural f => f

end

/-! ## Lookups into synthesized payloads -/

def SubNode.name : SubNode → String
  | .mk _ n _ _ _ => n

def SubForest.toList : SubForest → List SubNode
  | .nil => []
  | .cons hd tl => hd :: SubForest.toList tl

theorem payloads_toList : (f : SubForest) →
    (SubForest.payloads f).toList = (SubForest.toList f).map (fun s => DVal.obj s.payload)
  | .nil => rfl
  | .cons hd tl => by
    rw [show (SubForest.payloads (.cons hd tl)).toList
        = DVal.obj (SubNode.payload hd) :: (SubForest.payloads tl).toList from rfl]
    rw [payloads_toList tl]
    rfl
  termination_by structural f => f

theorem DArr.toList_ofList : ∀ l : List DVal, (DArr.ofList l).toList = l := by
  intro l
  induction l with
  | nil => rfl
  | cons hd tl ih => simp only [DArr.ofList, DArr.toList, ih]

theorem nameOf_optPayload (o : OptModel) : nameOf (.obj o.payload) = .str o.name := rfl

theorem nameOf_subPayload : (s : SubNode) → nameOf (.obj s.payload) = .str s.name
  | .mk _ _ _ _ _ => rfl

/-- The names that key the top-level options array of a synthesized
payload: child names when the command has children, option names else. -/
def topNames (c : SlashCmdModel) : List String :=
  match c.children with
  | .cons hd tl => (SubForest.toList (.cons hd tl)).map SubNode.name
  | .nil => c.options.map OptModel.name

theorem get?_set_self : (d : DObj) → (k : String) → (v : DVal) →
    (d.set k v).get? k = some v
  | .nil, k, v => by simp [DObj.set, DObj.get?]
  | .cons k2 v2 tl, k, v => by
    by_cases h : k2 = k
    · simp [DObj.set, DObj.get?, h]
    · simp only [DObj.set, DObj.get?, beq_iff_eq, if_neg h]
      exact get?_set_self tl k v
  termination_by structural d => d

theorem get?_set_ne : (d : DObj) → (k : String) → (v : DVal) → (k' : String) → k ≠ k' →
    (d.set k v).get? k' = d.get? k'
  | .nil, k, v, k', h => by simp [DObj.set, DObj.get?, h]
  | .cons k2 v2 tl, k, v, k', h => by
    by_cases h2 : k2 = k
    · subst h2
      simp [DObj.set, DObj.get?, h]
    · simp only [DObj.set, beq_iff_eq, if_neg h2, DObj.get?]
      by_cases h3 : k2 = k'
      · simp [h3]
      · simp only [beq_iff_eq, if_neg h3]
        exact get?_set_ne tl k v k' h
  termination_by structural d => d

theorem get_payload_type (c : SlashCmdModel) (g : Option Int) :
    (c.get_payload g).get? "type" = some (.int c.type) := rfl

theorem get_payload_name (c : SlashCmdModel) (g : Option Int) :
    (c.get_payload g).get? "name" = some (.str c.name) := rfl

theorem get_payload_descr (c : SlashCmdModel) (g : Option Int) :
    (c.get_payload g).get? "description" = some (.str c.descr) := rfl

theorem get_payload_guild (c : SlashCmdModel) (g : Option Int) :
    (c.get_payload g).get? "guild_id"
      = if guildTruthy g then some (.int (g.getD 0)) else none := by
  rcases c with ⟨ty, nm, ds, dmp, dmPerm, ch, opts⟩
  rcases dmp with _ | p <;> cases dmPerm <;> cases hg : guildTruthy g <;>
    simp [SlashCmdModel.get_payload, DObj.get?, maybeCons, hg]

theorem get_payload_options (c : SlashCmdModel) (g : Option Int) :
    (c.get_payload g).get? "options" = some (.arr (DArr.ofList c.topOptions)) := by
  rcases c with ⟨ty, nm, ds, dmp, dmPerm, ch, opts⟩
  rcases dmp with _ | p <;> cases dmPerm <;> cases hg : guildTruthy g <;>
    simp [SlashCmdModel.get_payload, DObj.get?, maybeCons, hg]

theorem validOptions_topOptions (c : SlashCmdModel) (l' : List DVal)
    (hnd : strNodup (topNames c) = true) (hperm : l'.Perm c.topOptions) :
    validOptions l' c.topOptions = true := by
  rcases c with ⟨ty, nm, ds, dmp, dm, ch, opts⟩
  cases ch with
  | nil =>
    simp only [SlashCmdModel.topOptions] at hperm ⊢
    simp only [topNames] at hnd
    exact validOptions_of l' _
      (payloadListFacts _ OptModel.name nameOf_optPayload WFopt opts
        (strNodup_nodup _ hnd) l' hperm)
  | cons hd tl =>
    simp only [SlashCmdModel.topOptions, payloads_toList] at hperm ⊢
    simp only [topNames] at hnd
    exact validOptions_of l' _
      (payloadListFacts _ SubNode.name nameOf_subPayload WFsub (SubForest.toList (.cons hd tl))
        (strNodup_nodup _ hnd) l' hperm)

/-! ## Claim C1: order-insensitivity of `is_payload_valid` -/

/-- A required option `alpha` of a leaf subcommand. -/
def C1optA : OptModel := ⟨3, "alpha", "da", true, [], [], none, none, false⟩

/-- An optional option `beta` of a leaf subcommand. -/
def C1optB : OptModel := ⟨3, "beta", "db", false, [], [], none, none, false⟩

/-- A leaf subcommand with options `[alpha, beta]`. -/
def C1sub : SubNode := .mk 1 "sub" "ds" .nil [C1optA, C1optB]

/-- The same subcommand with its options array permuted to `[beta, alpha]`. -/
def C1subPerm : SubNode := .mk 1 "sub" "ds" .nil [C1optB, C1optA]

/-- A command whose single child is `C1sub`. -/
def C1cmd : SlashCmdModel := ⟨1, "grp", "dg", none, true, .cons C1sub .nil, []⟩

/-- The remote registration of `C1cmd`: identical except that the nested
options array of the subcommand is permuted. -/
def C1cmdPerm : SlashCmdModel := ⟨1, "grp", "dg", none, true, .cons C1subPerm .nil, []⟩

/-- C1 counterexample: a remote payload obtained from the locally
synthesized payload of `C1cmd` by permuting the *nested* (subcommand-level)
options array is rejected by `is_payload_valid`, refuting the claim that
option arrays are compared as name-keyed sets at every recursion level.
The first three conjuncts certify that the remote payload differs from the
local one only by that nested permutation. -/
theorem C1_nested_perm_invalid :
    getOpts (C1cmd.get_payload none) = [.obj (SubNode.payload C1sub)]
    ∧ getOpts (C1cmdPerm.get_payload none) = [.obj (SubNode.payload C1subPerm)]
    ∧ (getOpts (SubNode.payload C1subPerm)).Perm (getOpts (SubNode.payload C1sub))
    ∧ check_dictionary_values (C1cmd.get_payload none) (C1cmdPerm.get_payload none)
        ["description", "type", "name"] = true
    ∧ is_payload_valid (C1cmd.get_payload none) (C1cmdPerm.get_payload none) = false :=
  ⟨rfl, rfl, List.Perm.swap _ _ _, rfl, rfl⟩

/-- C1 (amended): the set-keyed, order-insensitive comparison holds for the
*top-level* options array only.  For every synthesized command payload
whose top-level entries have pairwise distinct names, and every remote
payload obtained from it by permuting the top-level options array,
`is_payload_valid` returns true.  (Deeper options arrays are compared as
ordered sequences by `deep_dictionary_check`; see the counterexample.) -/
theorem C1_top_level_perm_valid (c : SlashCmdModel) (g : Option Int) (l' : List DVal)
    (hnd : strNodup (topNames c) = true)
    (hperm : l'.Perm c.topOptions) :
    is_payload_valid (c.get_payload g)
      ((c.get_payload g).set "options" (.arr (DArr.ofList l'))) = true := by
  have hga : ((c.get_payload g).set "options" (.arr (DArr.ofList l'))).get? "guild_id"
      = (c.get_payload g).get? "guild_id" := get?_set_ne _ _ _ _ (by decide)
  have hde : ((c.get_payload g).set "options" (.arr (DArr.ofList l'))).get? "description"
      = (c.get_payload g).get? "description" := get?_set_ne _ _ _ _ (by decide)
  have hty : ((c.get_payload g).set "options" (.arr (DArr.ofList l'))).get? "type"
      = (c.get_payload g).get? "type" := get?_set_ne _ _ _ _ (by decide)
  have hnm : ((c.get_payload g).set "options" (.arr (DArr.ofList l'))).get? "name"
      = (c.get_payload g).get? "name" := get?_set_ne _ _ _ _ (by decide)
  have hop : ((c.get_payload g).set "options" (.arr (DArr.ofList l'))).get? "options"
      = some (.arr (DArr.ofList l')) := get?_set_self _ _ _
  simp only [is_payload_valid, Bool.and_eq_true]
  refine ⟨⟨⟨?_, ?_⟩, ?_⟩, ?_⟩
  · cases hg : guildTruthy g <;>
      simp [getOr, hga, get_payload_guild, hg, pyEq, toPyInt]
  · simp [check_dictionary_values, getOrNone, getOr, hde, hty, hnm,
      get_payload_descr, get_payload_type, get_payload_name, pyEq]
  · simp [getOpts, get_payload_options, hop, DArr.toList_ofList, hperm.length_eq]
  · simp only [getOpts, get_payload_options, hop, DArr.toList_ofList]
    exact validOptions_topOptions c l' hnd hperm

/-- A flat command with two distinctly named options, used to witness the
amended C1 theorem with a genuine (reversing) permutation. -/
def C1flat : SlashCmdModel := ⟨1, "cmd", "dg", some 8, true, .nil, [C1optA, C1optB]⟩

/-- Witness for the amended C1 theorem: reversing the two top-level options
of `C1flat` satisfies the hypotheses, and the permuted remote payload is
accepted. -/
theorem C1_top_level_perm_valid_witness :
    strNodup (topNames C1flat) = true
    ∧ (C1flat.topOptions.reverse).Perm C1flat.topOptions
    ∧ is_payload_valid (C1flat.get_payload (some 5))
        ((C1flat.get_payload (some 5)).set "options"
          (.arr (DArr.ofList C1flat.topOptions.reverse))) = true :=
  ⟨rfl, List.reverse_perm _,
    C1_top_level_perm_valid C1flat (some 5) C1flat.topOptions.reverse rfl
      (List.reverse_perm _)⟩

/-! ## The check pipeline (source: `CallbackMixin.can_run`, lines 483-547)

A check is modelled by its observable behaviour on the interaction at
hand: an id (recording evaluation order) and an outcome (a returned
boolean, or a raised exception). -/

/-- The tier a failing check belongs to; the source names it in the
`ApplicationCheckFailure` message ("global check functions" /
"cog check functions" / "check functions"). -/
inductive CheckTier where
  | global
  | cog
  | command
deriving DecidableEq

/-- An exception value: a check failure naming its tier, an arbitrary user
exception, or the `ApplicationInvokeError` wrapper. -/
inductive Exc where
  | appCheckFailure (tier : CheckTier)
  | userExc (n : Nat)
  | appInvokeError (e : Exc)
deriving DecidableEq

/-- The behaviour of one check predicate: return a boolean or raise. -/
inductive COut where
  | ret (b : Bool)
  | exn (e : Exc)
deriving DecidableEq

abbrev Check := Nat × COut

/-- One tier loop of `can_run`: evaluate the checks in order; an exception
raised by a check propagates (the `except ApplicationCheckFailure: raise`
arm re-raises, anything else is uncaught), a falsy result raises
`ApplicationCheckFailure` naming the tier.  Returns the ids evaluated, in
order, and the exception if one was raised. -/
def runTier (tier : CheckTier) : List Check → List Nat × Option Exc
  | [] => ([], none)
  | (cid, out) :: rest =>
    match out with
    | .exn e => ([cid], some e)
    | .ret false => ([cid], some (.appCheckFailure tier))
    | .ret true => ((cid :: (runTier tier rest).1), (runTier tier rest).2)

/-- Source `CallbackMixin.can_run` (lines 483-547): the global checks loop,
then the cog check override when present, then the command's own checks
loop; on success returns `True`. -/
def can_run (globals : List Check) (cogCheck : Option Check) (cmdChecks : List Check) :
    List Nat × Except Exc Bool :=
  match runTier .global globals with
  | (tr, some e) => (tr, .error e)
  | (tr, none) =>
    match cogCheck with
    | some (cid, out) =>
      (match out with
       | .exn e => (tr ++ [cid], .error e)
       | .ret false => (tr ++ [cid], .error (.appCheckFailure .cog))
       | .ret true =>
         match runTier .command cmdChecks with
         | (tr2, some e) => (tr ++ [cid] ++ tr2, .error e)
         | (tr2, none) => (tr ++ [cid] ++ tr2, .ok true))
    | none =>
      match runTier .command cmdChecks with
      | (tr2, some e) => (tr ++ tr2, .error e)
      | (tr2, none) => (tr ++ tr2, .ok true)

/-- The checks tagged with their tiers, in the engine-wide → cog → command
order the spec prescribes. -/
def tieredChecks (globals : List Check) (cogCheck : Option Check) (cmdChecks : List Check) :
    List (CheckTier × Check) :=
  globals.map (fun c => (.global, c))
    ++ (cogCheck.toList.map (fun c => (.cog, c)) ++ cmdChecks.map (fun c => (.command, c)))

/-- Modelled from the spec (§4.5): evaluate the tiered checks in order,
short-circuiting at the first failing predicate; a falsy predicate raises a
check failure identifying its tier, a raising predicate propagates, and
only if every predicate passes does the run return `True`. -/
def runCheckSeq : List (CheckTier × Check) → List Nat × Except Exc Bool
  | [] => ([], .ok true)
  | (tier, cid, out) :: rest =>
    match out with
    | .exn e => ([cid], .error e)
    | .ret false => ([cid], .error (.appCheckFailure tier))
    | .ret true => ((cid :: (runCheckSeq rest).1), (runCheckSeq rest).2)

theorem runCheckSeq_tier_append (tier : CheckTier) (l : List Check)
    (rest : List (CheckTier × Check)) :
    runCheckSeq (l.map (fun c => (tier, c)) ++ rest)
      = match runTier tier l with
        | (tr, some e) => (tr, .error e)
        | (tr, none) => (tr ++ (runCheckSeq rest).1, (runCheckSeq rest).2) := by
  induction l with
  | nil => simp [runTier]
  | cons hd tlist ih =>
    rcases hd with ⟨cid, out⟩
    cases out with
    | exn e => simp [runTier, runCheckSeq]
    | ret b =>
      cases b
      · simp [runTier, runCheckSeq]
      · simp only [List.map_cons, List.cons_append, runCheckSeq]
        cases hrt : runTier tier tlist with
        | mk tr r =>
          rw [hrt] at ih
          cases r <;> simp [runTier, hrt, ih]

/-- Claim C6: `can_run` evaluates the check predicates in engine-wide →
cog → command order, short-circuits at the first failing predicate, and a
failure surfaces as a raised exception — an `ApplicationCheckFailure`
naming the failing tier for a falsy predicate, the check's own exception
otherwise — never as a swallowed falsy return (`runCheckSeq` returns
`.ok` only with `true`). -/
theorem C6_can_run_tier_order (g cs : List Check) (cog : Option Check) :
    can_run g cog cs = runCheckSeq (tieredChecks g cog cs) := by
  have hcmd := runCheckSeq_tier_append .command cs []
  rw [List.append_nil] at hcmd
  simp only [runCheckSeq] at hcmd
  unfold can_run tieredChecks
  rw [runCheckSeq_tier_append]
  cases hrt : runTier .global g with
  | mk tr r =>
    cases r with
    | some e => simp
    | none =>
      cases cog with
      | none =>
        simp only [Option.toList_none, List.map_nil, List.nil_append]
        cases hc : runTier .command cs with
        | mk tr2 r2 =>
          rw [hc] at hcmd
          cases r2 <;> simp_all
      | some c =>
        rcases c with ⟨cid, out⟩
        cases out with
        | exn e => simp [runCheckSeq]
        | ret b =>
          cases b
          · simp [runCheckSeq]
          · simp only [Option.toList_some, List.map_cons, List.map_nil, List.cons_append,
              List.nil_append, runCheckSeq]
            cases hc : runTier .command cs with
            | mk tr2 r2 =>
              rw [hc] at hcmd
              cases r2 <;> simp_all

/-! ## The hook pipeline
(source: `CallbackMixin.invoke_callback_with_hooks`, lines 549-584) -/

/-- Hook specificity tiers: the command itself, its cog, the engine-wide
(connection state) registration. -/
inductive Tier where
  | node
  | cog
  | engine
deriving DecidableEq

/-- Observable events of one dispatch: the process-wide error event
(`state.dispatch("application_command_error", ...)`), the node's own error
handler (`error_callback`), before/after hooks, and the start of the bound
callback. -/
inductive Ev where
  | dispatched (e : Exc)
  | handlerCalled (e : Exc)
  | before (t : Tier)
  | callbackStarted
  | after (t : Tier)
deriving DecidableEq

/-- `if <registered>: [event]` — one optional hook invocation. -/
def ifEv (b : Bool) (e : Ev) : List Ev := if b then [e] else []

/-- The per-dispatch configuration `invoke_callback_with_hooks` reads: the
`can_run` outcome, which hooks are registered, whether an error handler is
registered, and whether the callback body raises.  Hook bodies themselves
are modelled as non-raising. -/
structure HookCfg where
  canRun : Except Exc Bool
  hasNodeBefore : Bool
  hasCogBefore : Bool
  hasEngineBefore : Bool
  hasNodeAfter : Bool
  hasCogAfter : Bool
  hasEngineAfter : Bool
  hasErrorHandler : Bool
  callbackRaises : Option Exc

/-- Source `CallbackMixin.invoke_error` (lines 592-597): invoke the node's
error handler only when one is registered, passing the error as given. -/
def invoke_error (cfg : HookCfg) (e : Exc) : List Ev :=
  if cfg.hasErrorHandler then [.handlerCalled e] else []

/-- Source `CallbackMixin.invoke_callback_with_hooks` (lines 549-584): a
`can_run` exception is dispatched and forwarded, then the method returns; a
falsy `can_run` silently skips everything; otherwise before-invoke hooks
run (node, cog, engine), the callback runs inside `try/except/finally` —
an exception is dispatched wrapped in `ApplicationInvokeError` and the
handler is invoked with the raw error — and the `finally` block runs the
after-invoke hooks (node, cog, engine). -/
def invoke_callback_with_hooks (cfg : HookCfg) : List Ev :=
  match cfg.canRun with
  | .error e => .dispatched e :: invoke_error cfg e
  | .ok false => []
  | .ok true =>
    ifEv cfg.hasNodeBefore (.before .node)
    ++ ifEv cfg.hasCogBefore (.before .cog)
    ++ ifEv cfg.hasEngineBefore (.before .engine)
    ++ Ev.callbackStarted
      :: ((match cfg.callbackRaises with
           | some e => Ev.dispatched (.appInvokeError e) :: invoke_error cfg e
           | none => [])
        ++ ifEv cfg.hasNodeAfter (.after .node)
        ++ ifEv cfg.hasCogAfter (.after .cog)
        ++ ifEv cfg.hasEngineAfter (.after .engine))

/-- The spec's before-invoke hook order: node → scope (cog) → engine. -/
def beforeHooksSeq (cfg : HookCfg) : List Ev :=
  ifEv cfg.hasNodeBefore (.before .node) ++ ifEv cfg.hasCogBefore (.before .cog)
    ++ ifEv cfg.hasEngineBefore (.before .engine)

/-- The spec's after-invoke hook order: node → scope (cog) → engine. -/
def afterHooksSeq (cfg : HookCfg) : List Ev :=
  ifEv cfg.hasNodeAfter (.after .node) ++ ifEv cfg.hasCogAfter (.after .cog)
    ++ ifEv cfg.hasEngineAfter (.after .engine)

theorem mem_ifEv {x : Ev} {b : Bool} {e : Ev} : x ∈ ifEv b e ↔ b = true ∧ x = e := by
  cases b <;> simp [ifEv]

/-- Claim C2: when `can_run` raises, the dispatch runs no before- and no
after-invoke hook and never starts the callback; when it returns false,
nothing at all runs; when it succeeds, the trace is exactly the
before-invoke hooks in node → cog → engine order, the callback, the error
events if the callback raised, and — raised or not — the after-invoke
hooks in node → cog → engine order. -/
theorem C2_hook_order_and_guards (cfg : HookCfg) :
    (∀ e, cfg.canRun = .error e →
      invoke_callback_with_hooks cfg = .dispatched e :: invoke_error cfg e
        ∧ (∀ t, Ev.before t ∉ invoke_callback_with_hooks cfg)
        ∧ (∀ t, Ev.after t ∉ invoke_callback_with_hooks cfg)
        ∧ Ev.callbackStarted ∉ invoke_callback_with_hooks cfg)
    ∧ (cfg.canRun = .ok false → invoke_callback_with_hooks cfg = [])
    ∧ (cfg.canRun = .ok true →
        invoke_callback_with_hooks cfg
          = beforeHooksSeq cfg ++ Ev.callbackStarted
              :: ((match cfg.callbackRaises with
                   | some e => Ev.dispatched (.appInvokeError e) :: invoke_error cfg e
                   | none => [])
                ++ afterHooksSeq cfg)) := by
  refine ⟨?_, ?_, ?_⟩
  · intro e he
    refine ⟨by simp [invoke_callback_with_hooks, he], ?_, ?_, ?_⟩ <;>
      cases hh : cfg.hasErrorHandler <;>
        simp [invoke_callback_with_hooks, he, invoke_error, hh]
  · intro h
    simp [invoke_callback_with_hooks, h]
  · intro h
    simp [invoke_callback_with_hooks, h, beforeHooksSeq, afterHooksSeq, List.append_assoc]

/-- A configuration where every hook and the error handler are registered
and the callback raises. -/
def C2cfg : HookCfg := ⟨.ok true, true, true, true, true, true, true, true, some (.userExc 7)⟩

/-- A configuration where `can_run` raised a check failure. -/
def C2cfgFail : HookCfg :=
  ⟨.error (.appCheckFailure .command), true, true, true, true, true, true, true, none⟩

/-- Witness for C2: on `C2cfg` the hypotheses hold and the trace is the
full hook sandwich; on `C2cfgFail` only the error events occur. -/
theorem C2_hook_order_and_guards_witness :
    invoke_callback_with_hooks C2cfg
      = [.before .node, .before .cog, .before .engine, .callbackStarted,
         .dispatched (.appInvokeError (.userExc 7)), .handlerCalled (.userExc 7),
         .after .node, .after .cog, .after .engine]
    ∧ invoke_callback_with_hooks C2cfgFail
      = [.dispatched (.appCheckFailure .command),
         .handlerCalled (.appCheckFailure .command)] := by
  constructor
  · have h := (C2_hook_order_and_guards C2cfg).2.2 rfl
    simpa [beforeHooksSeq, afterHooksSeq, C2cfg, invoke_error, ifEv] using h
  · have h := ((C2_hook_order_and_guards C2cfgFail).1 _ rfl).1
    simpa [C2cfgFail, invoke_error] using h

/-- Number of process-wide error-event dispatches in a trace. -/
def countDispatched (l : List Ev) : Nat :=
  l.countP fun ev => match ev with | .dispatched _ => true | _ => false

/-- C3 counterexample: with an error handler registered and the callback
raising `userExc 3`, the process-wide error event still fires (with the
wrapped error) *in addition to* the handler, and the handler receives the
raw exception, not the `ApplicationInvokeError` wrapper — refuting
"forwarded to the node's error handler if present, **else** to the
process-wide error event" and "wrapped and forwarded to the handler". -/
theorem C3_dispatch_not_exclusive :
    Ev.handlerCalled (.userExc 3)
        ∈ invoke_callback_with_hooks ⟨.ok true, false, false, false, false, false, false,
            true, some (.userExc 3)⟩
    ∧ Ev.dispatched (.appInvokeError (.userExc 3))
        ∈ invoke_callback_with_hooks ⟨.ok true, false, false, false, false, false, false,
            true, some (.userExc 3)⟩
    ∧ Ev.handlerCalled (.appInvokeError (.userExc 3))
        ∉ invoke_callback_with_hooks ⟨.ok true, false, false, false, false, false, false,
            true, some (.userExc 3)⟩ := by
  decide

/-- Claim C3 (amended): a callback exception is wrapped in
`ApplicationInvokeError` and dispatched on the process-wide error event
exactly once; the node's error handler, when registered, is *additionally*
invoked with the raw (unwrapped) exception; a check failure likewise
dispatches exactly one process-wide event (the failure itself) plus the
optional handler call; a successful invocation dispatches none. -/
theorem C3_error_translation (cfg : HookCfg) :
    (∀ e, cfg.canRun = .error e →
      countDispatched (invoke_callback_with_hooks cfg) = 1
        ∧ Ev.dispatched e ∈ invoke_callback_with_hooks cfg
        ∧ (cfg.hasErrorHandler = true → Ev.handlerCalled e ∈ invoke_callback_with_hooks cfg)
        ∧ (cfg.hasErrorHandler = false →
            ∀ e', Ev.handlerCalled e' ∉ invoke_callback_with_hooks cfg))
    ∧ (∀ e, cfg.canRun = .ok true → cfg.callbackRaises = some e →
      countDispatched (invoke_callback_with_hooks cfg) = 1
        ∧ Ev.dispatched (.appInvokeError e) ∈ invoke_callback_with_hooks cfg
        ∧ (cfg.hasErrorHandler = true → Ev.handlerCalled e ∈ invoke_callback_with_hooks cfg)
        ∧ (cfg.hasErrorHandler = false →
            ∀ e', Ev.handlerCalled e' ∉ invoke_callback_with_hooks cfg))
    ∧ (cfg.canRun = .ok true → cfg.callbackRaises = none →
      countDispatched (invoke_callback_with_hooks cfg) = 0
        ∧ ∀ e', Ev.handlerCalled e' ∉ invoke_callback_with_hooks cfg) := by
  refine ⟨?_, ?_, ?_⟩
  · intro e he
    cases hh : cfg.hasErrorHandler <;>
      simp [invoke_callback_with_hooks, he, invoke_error, hh, countDispatched]
  · intro e ho hr
    cases hh : cfg.hasErrorHandler <;>
      cases hnb : cfg.hasNodeBefore <;> cases hcb : cfg.hasCogBefore <;>
      cases heb : cfg.hasEngineBefore <;> cases hna : cfg.hasNodeAfter <;>
      cases hca : cfg.hasCogAfter <;> cases hea : cfg.hasEngineAfter <;>
      simp [invoke_callback_with_hooks, ho, hr, invoke_error, hh, hnb, hcb, heb, hna,
        hca, hea, countDispatched, ifEv]
  · intro ho hr
    cases hnb : cfg.hasNodeBefore <;> cases hcb : cfg.hasCogBefore <;>
      cases heb : cfg.hasEngineBefore <;> cases hna : cfg.hasNodeAfter <;>
      cases hca : cfg.hasCogAfter <;> cases hea : cfg.hasEngineAfter <;>
      simp [invoke_callback_with_hooks, ho, hr, invoke_error, hnb, hcb, heb, hna,
        hca, hea, countDispatched, ifEv]

/-- Witness for the amended C3 theorem at a concrete configuration with a
registered handler and a raising callback. -/
theorem C3_error_translation_witness :
    countDispatched (invoke_callback_with_hooks
        ⟨.ok true, false, false, false, false, false, false, true, some (.userExc 3)⟩) = 1
    ∧ Ev.dispatched (.appInvokeError (.userExc 3))
        ∈ invoke_callback_with_hooks
            ⟨.ok true, false, false, false, false, false, false, true, some (.userExc 3)⟩ := by
  have h := (C3_error_translation
    ⟨.ok true, false, false, false, false, false, false, true, some (.userExc 3)⟩).2.1
    (.userExc 3) rfl rfl
  exact ⟨h.1, h.2.1⟩

/-! ## Slash routing and argument resolution
(source: `SlashCommandMixin.call_slash`, lines 1015-1039, and
`SlashCommandOption.handle_value`, lines 961-988) -/

/-- The option types `handle_value` branches on. -/
inductive OptType where
  | string
  | integer
  | boolean
  | number
  | user
  | channel
  | role
  | attachment
  | mentionable
deriving DecidableEq

/-- The state of one declared option that `call_slash` reads: the payload
name (the key in the command's options dict), the callback keyword
(`functional_name`), the resolved type and the configured default. -/
structure OptDecl where
  name : String
  functional_name : String
  type : OptType
  default : DVal

/-- Source `SlashCommandOption.handle_value` (lines 961-988): type-directed
coercion of a wire value.  Entity lookups (channel/user/role/attachment/
mentionable) go through the cache or the interaction's resolved blobs —
external collaborators — and are modelled as a reference to the entity
with the parsed id.  `number` is a numeric passthrough (`float(value)`);
custom converters are outside the modelled fragment. -/
def handle_value (t : OptType) (v : DVal) : DVal :=
  match t with
  | .channel => .res "channel" (toPyInt v)
  | .user => .res "user" (toPyInt v)
  | .role => .res "role" (toPyInt v)
  | .integer => if pyEq v (.str "") then .null else .int (toPyInt v)
  | .number => v
  | .attachment => .res "attachment" (toPyInt v)
  | .mentionable => .res "mentionable" (toPyInt v)
  | .string => v
  | .boolean => v

/-- One inbound option frame: `{name, value? | options?}`. -/
inductive Frame where
  | mk (name : String) (value : Option DVal) (options : List Frame)

def Frame.name : Frame → String
  | .mk n _ _ => n

def Frame.value : Frame → Option DVal
  | .mk _ v _ => v

/-- The nested frames: `arg_data.get("options", {})`. -/
def Frame.options : Frame → List Frame
  | .mk _ _ o => o

/-- The routing failures `call_slash` can raise: `KeyError` from a plain
dict subscript (an unknown child name, or a frame without a `value` key),
`IndexError` from `option_data[0]` on an empty list, and the explicit
`NotImplementedError` for an argument that is not declared on the
function. -/
inductive RouteErr where
  | keyError (k : String)
  | indexError
  | notImplementedError
deriving DecidableEq

abbrev Kwargs := List (String × DVal)

/-- Assignment into the `kwargs` dict. -/
def kwSet (l : Kwargs) (k : String) (v : DVal) : Kwargs :=
  match l with
  | [] => [(k, v)]
  | (k2, v2) :: tl => if k2 == k then (k2, v) :: tl else (k2, v2) :: kwSet tl k v

/-- Lookup in the `kwargs` dict. -/
def kwGet? (l : Kwargs) (k : String) : Option DVal :=
  match l with
  | [] => none
  | (k2, v2) :: tl => if k2 == k then some v2 else kwGet? tl k

/-- `name in uncalled_args` / `self.options[name]`: first declared option
with the given payload name. -/
def findOpt (nm : String) : List OptDecl → Option OptDecl
  | [] => none
  | o :: rest => if o.name == nm then some o else findOpt nm rest

/-- `uncalled_args.pop(name)`: drop the entry with the given name. -/
def removeOpt (nm : String) : List OptDecl → List OptDecl
  | [] => []
  | o :: rest => if o.name == nm then rest else o :: removeOpt nm rest

/-- The `for arg_data in option_data` loop of `call_slash` (lines
1023-1035): each frame must name an uncalled declared option (else the
explicit `NotImplementedError` is raised), its value is resolved through
`handle_value` and stored under the option's `functional_name`; returns the
accumulated kwargs and the remaining uncalled options. -/
def callArgsLoop (allOpts : List OptDecl) (uncalled : List OptDecl) (acc : Kwargs) :
    List Frame → Except RouteErr (Kwargs × List OptDecl)
  | [] => .ok (acc, uncalled)
  | f :: rest =>
    match findOpt f.name uncalled with
    | none => .error .notImplementedError
    | some _ =>
      match findOpt f.name allOpts, f.value with
      | some o, some v =>
        callArgsLoop allOpts (removeOpt f.name uncalled)
          (kwSet acc o.functional_name (handle_value o.type v)) rest
      | some _, none => .error (.keyError "value")
      | none, _ => .error (.keyError f.name)

/-- The `else` branch of `call_slash` (lines 1020-1039): resolve the
frames, then bind every still-uncalled option to its configured default
(lines 1036-1037). -/
def addDefaults (acc : Kwargs) : List OptDecl → Kwargs
  | [] => acc
  | o :: rest => addDefaults (kwSet acc o.functional_name o.default) rest

def leafCall (opts : List OptDecl) (frames : List Frame) : Except RouteErr Kwargs :=
  match callArgsLoop opts opts [] frames with
  | .error e => .error e
  | .ok (acc, uncalled) => .ok (addDefaults acc uncalled)

mutual

/-- A command-tree node as `call_slash` sees it: the children dict and the
options dict (mutual with the child map so recursion stays structural). -/
inductive SlashNode where
  | mk (children : ChildMap) (options : List OptDecl)

inductive ChildMap where
  | nil
  | cons (name : String) (node : SlashNode) (tl : ChildMap)

end

mutual

/-- Source `SlashCommandMixin.call_slash` (lines 1015-1039): a node with
children pops the first frame (`IndexError` on an empty list) and descends
into the child of that name (`KeyError` when absent); a childless node
resolves the frames as its arguments. -/
def call_slash : SlashNode → List Frame → Except RouteErr Kwargs
  | .mk .nil opts, frames => leafCall opts frames
  | .mk (.cons cn cnode ctl) _, frames =>
    match frames with
    | [] => .error .indexError
    | f :: _ => routeChild f.name f.options (.cons cn cnode ctl)
  termination_by structural n => n

/-- `self.children[name]` followed by the recursive call. -/
def routeChild (nm : String) (subFrames : List Frame) : ChildMap → Except RouteErr Kwargs
  | .nil => .error (.keyError nm)
  | .cons cn cnode ctl =>
    if cn == nm then call_slash cnode subFrames else routeChild nm subFrames ctl
  termination_by structural c => c

end

/-- Specification-side child lookup (the `children[name]` subscript). -/
def ChildMap.find? (nm : String) : ChildMap → Option SlashNode
  | .nil => none
  | .cons cn cnode ctl => if cn == nm then some cnode else ChildMap.find? nm ctl

theorem routeChild_notFound : (cm : ChildMap) → (nm : String) → (fr : List Frame) →
    ChildMap.find? nm cm = none → routeChild nm fr cm = .error (.keyError nm)
  | .nil, _, _, _ => rfl
  | .cons cn cnode ctl, nm, fr, h => by
    simp only [ChildMap.find?] at h
    by_cases hc : cn = nm
    · rw [if_pos (by simpa using hc)] at h
      exact absurd h (by simp)
    · rw [if_neg (by simpa using hc)] at h
      simp only [routeChild, beq_iff_eq, if_neg hc]
      exact routeChild_notFound ctl nm fr h
  termination_by structural cm => cm

theorem findOpt_isSome_of_removeOpt (nm nm' : String) :
    ∀ l : List OptDecl, (findOpt nm (removeOpt nm' l)).isSome = true →
      (findOpt nm l).isSome = true := by
  intro l
  induction l with
  | nil => simp [removeOpt]
  | cons o rest ih =>
    intro h
    simp only [removeOpt] at h
    by_cases ho : o.name = nm'
    · rw [if_pos (by simpa using ho)] at h
      simp only [findOpt]
      by_cases hn : o.name = nm
      · simp [hn]
      · rw [if_neg (by simpa using hn)]
        exact h
    · rw [if_neg (by simpa using ho)] at h
      simp only [findOpt] at h ⊢
      by_cases hn : o.name = nm
      · simp [hn]
      · rw [if_neg (by simpa using hn)] at h ⊢
        exact ih h

theorem findOpt_removeOpt_ne (nm nm' : String) (hne : nm ≠ nm') :
    ∀ l : List OptDecl, findOpt nm (removeOpt nm' l) = findOpt nm l := by
  intro l
  induction l with
  | nil => simp [removeOpt, findOpt]
  | cons o rest ih =>
    simp only [removeOpt]
    by_cases ho : o.name = nm'
    · rw [if_pos (by simpa using ho)]
      simp only [findOpt]
      have : o.name ≠ nm := by rw [ho]; exact fun h => hne h.symm
      rw [if_neg (by simpa using this)]
    · rw [if_neg (by simpa using ho)]
      simp only [findOpt]
      by_cases hn : o.name = nm
      · simp [hn]
      · rw [if_neg (by simpa using hn), if_neg (by simpa using hn)]
        exact ih

theorem findOpt_mem {nm : String} : ∀ {l : List OptDecl} {o : OptDecl},
    findOpt nm l = some o → o ∈ l ∧ o.name = nm := by
  intro l
  induction l with
  | nil => intro o h; simp [findOpt] at h
  | cons o1 rest ih =>
    intro o h
    simp only [findOpt] at h
    by_cases hn : o1.name = nm
    · rw [if_pos (by simpa using hn)] at h
      cases h
      exact ⟨by simp, hn⟩
    · rw [if_neg (by simpa using hn)] at h
      obtain ⟨hm, he⟩ := ih h
      exact ⟨by simp [hm], he⟩

theorem mem_removeOpt {o : OptDecl} {nm : String} (hne : o.name ≠ nm) :
    ∀ {l : List OptDecl}, o ∈ l → o ∈ removeOpt nm l := by
  intro l
  induction l with
  | nil => intro h; simp at h
  | cons o1 rest ih =>
    intro h
    simp only [removeOpt]
    by_cases h1 : o1.name = nm
    · rw [if_pos (by simpa using h1)]
      rcases List.mem_cons.mp h with h | h
      · subst h; exact absurd h1 hne
      · exact h
    · rw [if_neg (by simpa using h1)]
      rcases List.mem_cons.mp h with h | h
      · simp [h]
      · simp [ih h]

theorem removeOpt_sublist (nm : String) : ∀ l : List OptDecl, (removeOpt nm l).Sublist l := by
  intro l
  induction l with
  | nil => simp [removeOpt]
  | cons o rest ih =>
    simp only [removeOpt]
    by_cases h1 : o.name = nm
    · rw [if_pos (by simpa using h1)]
      exact List.sublist_cons_self o rest
    · rw [if_neg (by simpa using h1)]
      exact ih.cons₂ o

/-- The C4 leaf failure: when every frame has a value but some frame names
no declared option, the argument loop raises the `NotImplementedError`. -/
theorem callArgsLoop_unmatched_err (allOpts : List OptDecl) :
    ∀ (frames : List Frame) (uncalled : List OptDecl) (acc : Kwargs),
      (∀ f ∈ frames, f.value.isSome = true) →
      (∀ nm, (findOpt nm uncalled).isSome = true → (findOpt nm allOpts).isSome = true) →
      (∃ f ∈ frames, findOpt f.name allOpts = none) →
      callArgsLoop allOpts uncalled acc frames = .error .notImplementedError := by
  intro frames
  induction frames with
  | nil => intro _ _ _ _ hex; simp at hex
  | cons f rest ih =>
    intro uncalled acc hv hinv hex
    simp only [callArgsLoop]
    cases hu : findOpt f.name uncalled with
    | none => rfl
    | some o1 =>
      have hall : (findOpt f.name allOpts).isSome = true := hinv _ (by simp [hu])
      cases ha : findOpt f.name allOpts with
      | none => rw [ha] at hall; simp at hall
      | some o =>
        cases hfv : f.value with
        | none =>
          have := hv f (by simp)
          rw [hfv] at this
          simp at this
        | some v =>
          refine ih (removeOpt f.name uncalled) _ (fun g hg => hv g (by simp [hg]))
            (fun nm h => hinv nm (findOpt_isSome_of_removeOpt nm f.name uncalled h)) ?_
          obtain ⟨g, hg, hgn⟩ := hex
          rcases List.mem_cons.mp hg with hgf | hgr
          · subst hgf
            rw [hgn] at ha
            exact absurd ha (by simp)
          · exact ⟨g, hgr, hgn⟩

/-- Claim C4 (amended): the three routing-failure modes of `call_slash`.
A node with children and an empty frame list fails with `IndexError`; a
first frame naming no child fails with the plain `KeyError` of the dict
subscript; a childless node receiving value frames one of which names no
declared option fails with the explicit `NotImplementedError`.  All are
raised immediately and nothing retries. -/
theorem C4_routing_failures :
    (∀ (cn : String) (cnode : SlashNode) (ctl : ChildMap) (opts : List OptDecl)
        (f : Frame) (rest : List Frame),
      ChildMap.find? f.name (.cons cn cnode ctl) = none →
      call_slash (.mk (.cons cn cnode ctl) opts) (f :: rest) = .error (.keyError f.name))
    ∧ (∀ (cn : String) (cnode : SlashNode) (ctl : ChildMap) (opts : List OptDecl),
        call_slash (.mk (.cons cn cnode ctl) opts) [] = .error .indexError)
    ∧ (∀ (opts : List OptDecl) (frames : List Frame),
        (∀ f ∈ frames, f.value.isSome = true) →
        (∃ f ∈ frames, findOpt f.name opts = none) →
        call_slash (.mk .nil opts) frames = .error .notImplementedError) := by
  refine ⟨?_, ?_, ?_⟩
  · intro cn cnode ctl opts f rest h
    show routeChild f.name f.options (.cons cn cnode ctl) = .error (.keyError f.name)
    exact routeChild_notFound _ _ _ h
  · intro cn cnode ctl opts
    rfl
  · intro opts frames hv hex
    show leafCall opts frames = .error .notImplementedError
    unfold leafCall
    rw [callArgsLoop_unmatched_err opts frames opts [] hv (fun nm h => h) hex]

/-- Witness for the amended C4 theorem: a concrete child miss yields the
plain `KeyError`, a concrete unmatched value frame yields the
`NotImplementedError`. -/
theorem C4_routing_failures_witness :
    call_slash (.mk (.cons "sub" (.mk .nil []) .nil) []) [.mk "other" none []]
      = .error (.keyError "other")
    ∧ call_slash (.mk .nil [⟨"a", "a", .string, .null⟩]) [.mk "b" (some (.str "x")) []]
      = .error .notImplementedError := by
  constructor
  · exact C4_routing_failures.1 "sub" _ _ _ _ _ rfl
  · exact C4_routing_failures.2.2 _ _ (by intro f hf; rw [List.mem_singleton] at hf; subst hf; rfl)
      ⟨.mk "b" (some (.str "x")) [], by simp, rfl⟩

/-- C4 counterexample: the two desync situations do not fail with one
structured stale-registration error: the child miss surfaces as the plain
dict-lookup `KeyError`, while only the unmatched-option case raises the
explicit (stale-registration) `NotImplementedError`, and the two
exceptions are distinct. -/
theorem C4_two_error_kinds :
    call_slash (.mk (.cons "sub" (.mk .nil []) .nil) []) [.mk "other" none []]
      = .error (.keyError "other")
    ∧ call_slash (.mk .nil [⟨"a", "a", .string, .null⟩]) [.mk "b" (some (.str "x")) []]
      = .error .notImplementedError
    ∧ RouteErr.keyError "other" ≠ RouteErr.notImplementedError :=
  ⟨rfl, rfl, by decide⟩

theorem kwGet?_kwSet_self (k : String) (v : DVal) : ∀ acc : Kwargs,
    kwGet? (kwSet acc k v) k = some v := by
  intro acc
  induction acc with
  | nil => simp [kwSet, kwGet?]
  | cons p tl ih =>
    rcases p with ⟨k2, v2⟩
    simp only [kwSet]
    by_cases h : k2 = k
    · simp [kwGet?, h]
    · rw [if_neg (by simpa using h)]
      simp only [kwGet?]
      rw [if_neg (by simpa using h)]
      exact ih

theorem kwGet?_kwSet_ne {k' k : String} (h : k' ≠ k) (v : DVal) : ∀ acc : Kwargs,
    kwGet? (kwSet acc k' v) k = kwGet? acc k := by
  intro acc
  induction acc with
  | nil => simp [kwSet, kwGet?, h]
  | cons p tl ih =>
    rcases p with ⟨k2, v2⟩
    simp only [kwSet]
    by_cases h2 : k2 = k'
    · subst h2
      rw [if_pos (by simp)]
      simp only [kwGet?]
      rw [if_neg (by simpa using h), if_neg (by simpa using h)]
    · rw [if_neg (by simpa using h2)]
      simp only [kwGet?]
      by_cases h3 : k2 = k
      · simp [h3]
      · rw [if_neg (by simpa using h3), if_neg (by simpa using h3)]
        exact ih

theorem addDefaults_preserve : ∀ (l : List OptDecl) (acc : Kwargs) (k : String),
    (∀ o ∈ l, o.functional_name ≠ k) → kwGet? (addDefaults acc l) k = kwGet? acc k := by
  intro l
  induction l with
  | nil => intro acc k _; rfl
  | cons o rest ih =>
    intro acc k h
    simp only [addDefaults]
    rw [ih _ _ (fun o2 h2 => h o2 (by simp [h2]))]
    exact kwGet?_kwSet_ne (h o (by simp)) _ _

theorem addDefaults_lookup : ∀ (l : List OptDecl) (acc : Kwargs) (o : OptDecl),
    o ∈ l → (l.map OptDecl.functional_name).Nodup → kwGet? acc o.functional_name = none →
    kwGet? (addDefaults acc l) o.functional_name = some o.default := by
  intro l
  induction l with
  | nil => intro acc o h; simp at h
  | cons o1 rest ih =>
    intro acc o hmem hnd hacc
    have hnd' : (rest.map OptDecl.functional_name).Nodup ∧
        o1.functional_name ∉ rest.map OptDecl.functional_name := by
      constructor
      · exact (List.nodup_cons.mp (by simpa using hnd)).2
      · exact (List.nodup_cons.mp (by simpa using hnd)).1
    simp only [addDefaults]
    rcases List.mem_cons.mp hmem with h | h
    · subst h
      rw [addDefaults_preserve rest _ _ (fun o2 h2 he =>
        hnd'.2 (by rw [← he]; exact List.mem_map_of_mem _ h2))]
      exact kwGet?_kwSet_self _ _ _
    · have hne : o1.functional_name ≠ o.functional_name := by
        intro he
        exact hnd'.2 (he ▸ List.mem_map_of_mem _ h)
      refine ih _ o h hnd'.1 ?_
      rw [kwGet?_kwSet_ne hne _ _]
      exact hacc

/-- Success of the argument loop: distinctly named frames that each carry a
value and each match an uncalled option resolve without error; options not
named by any frame survive into the returned uncalled set, and every key
bound so far is either inherited or the functional name of a matched
option. -/
theorem callArgsLoop_ok (allOpts : List OptDecl) :
    ∀ (frames : List Frame) (uncalled : List OptDecl) (acc : Kwargs),
      (∀ f ∈ frames, f.value.isSome = true ∧ (findOpt f.name uncalled).isSome = true) →
      strNodup (frames.map Frame.name) = true →
      (∀ nm, (findOpt nm uncalled).isSome = true → (findOpt nm allOpts).isSome = true) →
      ∃ acc' uncalled', callArgsLoop allOpts uncalled acc frames = .ok (acc', uncalled')
        ∧ uncalled'.Sublist uncalled
        ∧ (∀ o ∈ uncalled, (∀ f ∈ frames, f.name ≠ o.name) → o ∈ uncalled')
        ∧ (∀ k, (kwGet? acc' k).isSome = true → (kwGet? acc k).isSome = true
            ∨ ∃ f ∈ frames, ∃ o2, findOpt f.name allOpts = some o2
                ∧ o2.functional_name = k) := by
  intro frames
  induction frames with
  | nil =>
    intro uncalled acc _ _ _
    exact ⟨acc, uncalled, rfl, List.Sublist.refl _, fun o ho _ => ho,
      fun k h => Or.inl h⟩
  | cons f rest ih =>
    intro uncalled acc h hnd hinv
    obtain ⟨hfv, hfu⟩ := h f (by simp)
    have hnd' : (rest.map Frame.name).contains f.name = false ∧
        strNodup (rest.map Frame.name) = true := by
      simpa [strNodup, Bool.and_eq_true, Bool.not_eq_true'] using hnd
    have hfnotin : ∀ g ∈ rest, g.name ≠ f.name := by
      intro g hg he
      have : (rest.map Frame.name).contains f.name = true :=
        List.elem_eq_true_of_mem (he ▸ List.mem_map_of_mem _ hg)
      rw [hnd'.1] at this
      exact Bool.false_ne_true this
    simp only [callArgsLoop]
    cases hu : findOpt f.name uncalled with
    | none => rw [hu] at hfu; simp at hfu
    | some o1 =>
      cases hfval : f.value with
      | none => rw [hfval] at hfv; simp at hfv
      | some v =>
        cases ha : findOpt f.name allOpts with
        | none =>
          have hall : (findOpt f.name allOpts).isSome = true := hinv _ (by simp [hu])
          rw [ha] at hall
          simp at hall
        | some o =>
          obtain ⟨acc', uncalled', heq, hsub, hsurv, hkeys⟩ :=
            ih (removeOpt f.name uncalled)
              (kwSet acc o.functional_name (handle_value o.type v))
              (fun g hg => ⟨(h g (by simp [hg])).1, by
                rw [findOpt_removeOpt_ne g.name f.name (hfnotin g hg) uncalled]
                exact (h g (by simp [hg])).2⟩)
              hnd'.2
              (fun nm hn => hinv nm (findOpt_isSome_of_removeOpt nm f.name uncalled hn))
          refine ⟨acc', uncalled', heq, hsub.trans (removeOpt_sublist _ _), ?_, ?_⟩
          · intro o2 ho2 hno
            exact hsurv o2 (mem_removeOpt (fun he => hno f (by simp) he.symm) ho2)
              (fun g hg => hno g (by simp [hg]))
          · intro k hk
            rcases hkeys k hk with hk2 | ⟨g, hg, o2, ho2, hfn⟩
            · by_cases hko : o.functional_name = k
              · exact Or.inr ⟨f, by simp, o, ha, hko⟩
              · left
                rw [kwGet?_kwSet_ne hko _ _] at hk2
                exact hk2
            · exact Or.inr ⟨g, by simp [hg], o2, ho2, hfn⟩

/-- Claim C5: on a leaf invocation whose frames all carry values, have
distinct names and each match a declared option, routing succeeds, and
every declared option named by no frame is bound in the callback kwargs to
its configured default (which `SlashCommandOption.__init__` set to `None`
when no default was configured). -/
theorem C5_absent_options_resolve_default (opts : List OptDecl) (frames : List Frame)
    (hvals : ∀ f ∈ frames, f.value.isSome = true ∧ (findOpt f.name opts).isSome = true)
    (hfr : strNodup (frames.map Frame.name) = true)
    (hfn : strNodup (opts.map OptDecl.functional_name) = true) :
    ∃ kw, call_slash (.mk .nil opts) frames = .ok kw
      ∧ ∀ o ∈ opts, (∀ f ∈ frames, f.name ≠ o.name) →
          kwGet? kw o.functional_name = some o.default := by
  obtain ⟨acc', uncalled', heq, hsub, hsurv, hkeys⟩ :=
    callArgsLoop_ok opts frames opts [] hvals hfr (fun nm h => h)
  refine ⟨addDefaults acc' uncalled', ?_, ?_⟩
  · show leafCall opts frames = .ok (addDefaults acc' uncalled')
    unfold leafCall
    rw [heq]
  · intro o ho hunm
    have hofn_nodup : (uncalled'.map OptDecl.functional_name).Nodup :=
      List.Nodup.sublist (hsub.map _) (strNodup_nodup _ hfn)
    have homem : o ∈ uncalled' := hsurv o ho hunm
    have haccnone : kwGet? acc' o.functional_name = none := by
      cases hq : kwGet? acc' o.functional_name with
      | none => rfl
      | some v =>
        rcases hkeys o.functional_name (by simp [hq]) with h1 | ⟨f, hf, o2, ho2, hfn2⟩
        · simp [kwGet?] at h1
        · obtain ⟨ho2mem, ho2name⟩ := findOpt_mem ho2
          have ho2o : o2 = o :=
            List.inj_on_of_nodup_map (strNodup_nodup _ hfn) ho2mem ho hfn2
          rw [ho2o] at ho2name
          exact absurd ho2name.symm (hunm f hf)
    exact addDefaults_lookup uncalled' acc' o homem hofn_nodup haccnone

/-- Option A: required, no default configured (`None`). -/
def C5optA : OptDecl := ⟨"a", "a", .string, .null⟩

/-- Option B: optional with configured default `"D"`. -/
def C5optB : OptDecl := ⟨"b", "b", .string, .str "D"⟩

/-- Witness for C5 at the spec's own instance {A required, B optional
default D} invoked with only A present: hypotheses hold and B resolves to
D (and A to its supplied value). -/
theorem C5_absent_options_resolve_default_witness :
    (∀ f ∈ [Frame.mk "a" (some (.str "x")) []], f.value.isSome = true
      ∧ (findOpt f.name [C5optA, C5optB]).isSome = true)
    ∧ strNodup (([Frame.mk "a" (some (.str "x")) []]).map Frame.name) = true
    ∧ strNodup (([C5optA, C5optB]).map OptDecl.functional_name) = true
    ∧ (∃ kw, call_slash (.mk .nil [C5optA, C5optB]) [Frame.mk "a" (some (.str "x")) []]
          = .ok kw
        ∧ ∀ o ∈ [C5optA, C5optB],
            (∀ f ∈ [Frame.mk "a" (some (.str "x")) []], f.name ≠ o.name) →
            kwGet? kw o.functional_name = some o.default) :=
  ⟨by intro f hf; rw [List.mem_singleton] at hf; subst hf; exact ⟨rfl, rfl⟩,
   rfl, rfl,
   C5_absent_options_resolve_default [C5optA, C5optB] [Frame.mk "a" (some (.str "x")) []]
     (by intro f hf; rw [List.mem_singleton] at hf; subst hf; exact ⟨rfl, rfl⟩) rfl rfl⟩

/-! ## Option construction
(source: `SlashCommandOption.__init__`, lines 836-911) -/

/-- The explicitly set fields of a `SlashOption` override object placed as
the parameter's default (`MISSING` modelled as `none`).  Only the fields
the `required`/`default` computation reads are modelled. -/
structure SlashOptionArgs where
  name : Option String
  required : Option Bool
  default : Option DVal

/-- What a callback parameter's declared default can be. -/
inductive ParamDefault where
  | empty
  | slashOption (so : SlashOptionArgs)
  | plain (v : DVal)

/-- A callback parameter: its name, whether `type(None)` occurs in its
type annotation's arguments (an `Optional`/nullable annotation), and its
declared default. -/
structure Param where
  name : String
  annotNullable : Bool
  default : ParamDefault

/-- Lines 847-854: `cmd_arg` is the `SlashOption` given as the parameter
default, or a fresh empty one, and `cmd_arg_given` records which. -/
def cmdArgOf (p : Param) : SlashOptionArgs × Bool :=
  match p.default with
  | .slashOption so => (so, true)
  | _ => (⟨none, none, none⟩, false)

/-- `parameter.default is not parameter.empty`. -/
def hasParamDefault (p : Param) : Bool :=
  match p.default with
  | .empty => false
  | _ => true

/-- Lines 856-868: the `required` flag. -/
def computeRequired (p : Param) : Bool :=
  match (cmdArgOf p).1.required with
  | some r => r
  | none =>
    if p.annotNullable then false
    else if (cmdArgOf p).1.default.isSome then false
    else if hasParamDefault p && !(cmdArgOf p).2 then false
    else true

/-- Line 856: `self.name = cmd_arg.name or parameter.name` (an unset
override name falls back to the parameter's own name). -/
def computeName (p : Param) : String :=
  ((cmdArgOf p).1.name).getD p.name

/-- Lines 878-885: the configured default — the plain parameter default
when no `SlashOption` was given, else the `SlashOption`'s default; a still
unset default becomes `None`. -/
def computeDefault (p : Param) : DVal :=
  (if !(cmdArgOf p).2 && hasParamDefault p then
    match p.default with
    | .plain v => some v
    | _ => none
  else (cmdArgOf p).1.default).getD .null

/-- The fields of a constructed option the claims read. -/
structure BuiltOption where
  name : String
  functional_name : String
  required : Bool
  default : DVal

/-- The option `SlashCommandOption.__init__` builds from one parameter. -/
def optionFromParam (p : Param) : BuiltOption :=
  ⟨computeName p, p.name, computeRequired p, computeDefault p⟩

/-- A default value is declared, in the spec's sense: in the override
object, or as the parameter's own (plain) default. -/
def defaultDeclared (p : Param) : Bool :=
  (cmdArgOf p).1.default.isSome
    || (match p.default with | .plain _ => true | _ => false)

/-- Modelled from the spec (§4.1): required is computed with precedence
explicit override > nullable annotation > declared default > required. -/
def requiredSpec (p : Param) : Bool :=
  match (cmdArgOf p).1.required with
  | some r => r
  | none =>
    if p.annotNullable then false
    else if defaultDeclared p then false
    else true

/-- Claim C7: the `required` flag of every option constructed from a
callback parameter follows the spec's precedence: an explicit override
wins; else not required when the annotation is nullable; else not required
when a default is declared (in the override object or as the parameter
default); else required. -/
theorem C7_required_precedence (p : Param) :
    (optionFromParam p).required = requiredSpec p := by
  rcases p with ⟨nm, nullable, dflt⟩
  cases dflt with
  | empty =>
    cases nullable <;>
      simp [optionFromParam, computeRequired, requiredSpec, defaultDeclared, cmdArgOf,
        hasParamDefault]
  | plain v =>
    cases nullable <;>
      simp [optionFromParam, computeRequired, requiredSpec, defaultDeclared, cmdArgOf,
        hasParamDefault]
  | slashOption so =>
    rcases so with ⟨sn, sr, sd⟩
    cases sr <;> cases sd <;> cases nullable <;>
      simp [optionFromParam, computeRequired, requiredSpec, defaultDeclared, cmdArgOf,
        hasParamDefault]

/-! ## Callback binding
(source: `CallbackMixin.from_callback`, lines 433-481) -/

/-- Assignment into the options dict (`self.options[arg.name] = arg`). -/
def alSet (l : List (String × BuiltOption)) (k : String) (o : BuiltOption) :
    List (String × BuiltOption) :=
  match l with
  | [] => [(k, o)]
  | (k2, o2) :: tl => if k2 == k then (k2, o) :: tl else (k2, o2) :: alSet tl k o

/-- Lookup in the options dict. -/
def alGet? (l : List (String × BuiltOption)) (k : String) : Option BuiltOption :=
  match l with
  | [] => none
  | (k2, o2) :: tl => if k2 == k then some o2 else alGet? tl k

/-- The parameter loop of `from_callback` (lines 463-481): the
`first_arg`/`self_skip` dance skips the leading context parameter (and the
`self` parameter when the command lives in a cog), and every other
parameter is turned into an option stored under its name. -/
def processParams (first_arg self_skip : Bool) (opts : List (String × BuiltOption)) :
    List Param → List (String × BuiltOption)
  | [] => opts
  | p :: rest =>
    if first_arg then
      if !self_skip then processParams false self_skip opts rest
      else processParams true false opts rest
    else
      processParams first_arg self_skip (alSet opts (optionFromParam p).name (optionFromParam p))
        rest

/-- Source `from_callback` restricted to its option (re)computation: the
loop starts with `first_arg = True` and `self_skip` set when the command
has a parent cog, and mutates the *existing* options dict in place. -/
def from_callback_options (hasCog : Bool) (params : List Param)
    (current : List (String × BuiltOption)) : List (String × BuiltOption) :=
  processParams true hasCog current params

/-- The non-context parameters: all but the leading interaction parameter
(and the `self` parameter in a cog). -/
def nonContextParams (hasCog : Bool) (params : List Param) : List Param :=
  params.drop (if hasCog then 2 else 1)

/-- The last parameter in the list declaring the given option name. -/
def lastDeclared (nm : String) : List Param → Option Param
  | [] => none
  | p :: rest =>
    match lastDeclared nm rest with
    | some q => some q
    | none => if (optionFromParam p).name == nm then some p else none

theorem alGet?_alSet_self (k : String) (o : BuiltOption) :
    ∀ l, alGet? (alSet l k o) k = some o := by
  intro l
  induction l with
  | nil => simp [alSet, alGet?]
  | cons p tl ih =>
    rcases p with ⟨k2, o2⟩
    simp only [alSet]
    by_cases h : k2 = k
    · simp [alGet?, h]
    · rw [if_neg (by simpa using h)]
      simp only [alGet?]
      rw [if_neg (by simpa using h)]
      exact ih

theorem alGet?_alSet_ne {k' k : String} (h : k' ≠ k) (o : BuiltOption) :
    ∀ l, alGet? (alSet l k' o) k = alGet? l k := by
  intro l
  induction l with
  | nil => simp [alSet, alGet?, h]
  | cons p tl ih =>
    rcases p with ⟨k2, o2⟩
    simp only [alSet]
    by_cases h2 : k2 = k'
    · subst h2
      rw [if_pos (by simp)]
      simp only [alGet?]
      rw [if_neg (by simpa using h), if_neg (by simpa using h)]
    · rw [if_neg (by simpa using h2)]
      simp only [alGet?]
      by_cases h3 : k2 = k
      · simp [h3]
      · rw [if_neg (by simpa using h3), if_neg (by simpa using h3)]
        exact ih

theorem processParams_insert : ∀ (ps : List Param) (opts : List (String × BuiltOption))
    (nm : String),
    alGet? (processParams false false opts ps) nm
      = match lastDeclared nm ps with
        | some p => some (optionFromParam p)
        | none => alGet? opts nm := by
  intro ps
  induction ps with
  | nil => intro opts nm; rfl
  | cons p rest ih =>
    intro opts nm
    simp only [processParams, if_neg (by simp : ¬(false = true)), lastDeclared]
    rw [ih]
    cases hl : lastDeclared nm rest with
    | some q => rfl
    | none =>
      by_cases hn : (optionFromParam p).name = nm
      · rw [if_pos (by simpa using hn)]
        rw [← hn]
        exact alGet?_alSet_self _ _ _
      · rw [if_neg (by simpa using hn)]
        exact alGet?_alSet_ne (fun he => hn he) _ _

theorem from_callback_options_lookup (hasCog : Bool) (params : List Param)
    (current : List (String × BuiltOption)) (nm : String) :
    alGet? (from_callback_options hasCog params current) nm
      = match lastDeclared nm (nonContextParams hasCog params) with
        | some p => some (optionFromParam p)
        | none => alGet? current nm := by
  cases hasCog
  · cases params with
    | nil => rfl
    | cons p rest =>
      show alGet? (processParams false false current rest) nm = _
      exact processParams_insert rest current nm
  · cases params with
    | nil => rfl
    | cons p rest =>
      cases rest with
      | nil => rfl
      | cons q rest2 =>
        show alGet? (processParams false false current rest2) nm = _
        exact processParams_insert rest2 current nm

/-- The registration state of a command that rebinding must not touch. -/
structure CmdReg where
  options : List (String × BuiltOption)
  command_ids : List (Option Int × Int)
  guild_ids_to_rollout : List Int

/-- `from_callback` on the command state: it recomputes options into the
existing dict and touches nothing else. -/
def from_callback (hasCog : Bool) (params : List Param) (c : CmdReg) : CmdReg :=
  { c with options := from_callback_options hasCog params c.options }

/-- C8 counterexample: binding a callback with non-context parameter `a`
and then re-binding with non-context parameter `b` leaves *both* options
in the dict — the option computed from the previous bind survives even
though the new callback does not redeclare it, so the in-memory option set
is not "exactly one option per non-context parameter of the newest
callback". -/
theorem C8_stale_option_survives :
    (from_callback_options false [⟨"interaction", false, .empty⟩, ⟨"b", false, .empty⟩]
        (from_callback_options false
          [⟨"interaction", false, .empty⟩, ⟨"a", false, .empty⟩] [])).map Prod.fst
      = ["a", "b"]
    ∧ ["a", "b"] ≠ ["b"] :=
  ⟨rfl, by decide⟩

/-- Claim C8 (amended): re-binding merges one option per non-context
parameter of the newest callback into the existing option dict, keyed by
name — the newest declaration of a name supersedes the stored option, but
an option from a previous bind whose name the new callback does not
redeclare survives; and rebinding leaves the per-scope remote id map
(`command_ids`) and the rollout scope set untouched. -/
theorem C8_rebinding_merges (hasCog : Bool) (params : List Param) (c : CmdReg) :
    (∀ nm, alGet? (from_callback hasCog params c).options nm
      = match lastDeclared nm (nonContextParams hasCog params) with
        | some p => some (optionFromParam p)
        | none => alGet? c.options nm)
    ∧ (from_callback hasCog params c).command_ids = c.command_ids
    ∧ (from_callback hasCog params c).guild_ids_to_rollout = c.guild_ids_to_rollout :=
  ⟨fun nm => from_callback_options_lookup hasCog params c.options nm, rfl, rfl⟩

/-! ## Registration acknowledgments
(source: `BaseApplicationCommand.parse_discord_response`, lines 1176-1185) -/

/-- The fields of the acknowledgment payload the method reads: the remote
command id and the optional guild scope id (decoded to an integer). -/
structure RespData where
  id : Int
  guild_id : Option Int

/-- Assignment into the `command_ids` dict (`{guild_id or None: id}`). -/
def idSet (l : List (Option Int × Int)) (k : Option Int) (v : Int) :
    List (Option Int × Int) :=
  match l with
  | [] => [(k, v)]
  | (k2, v2) :: tl => if k2 == k then (k2, v) :: tl else (k2, v2) :: idSet tl k v

def idGet? (l : List (Option Int × Int)) (k : Option Int) : Option Int :=
  match l with
  | [] => none
  | (k2, v2) :: tl => if k2 == k then some v2 else idGet? tl k

/-- `self.guild_ids_to_rollout.add(guild_id)`: set insertion. -/
def rolloutAdd (l : List Int) (g : Int) : List Int :=
  if l.contains g then l else l ++ [g]

/-- Source `parse_discord_response` (lines 1176-1185): a truthy `guild_id`
(present and nonzero) stores the remote id under that guild *and* adds the
guild to `guild_ids_to_rollout`; otherwise the id is stored under the
global (`None`) key and the rollout set is untouched. -/
def parse_discord_response (c : CmdReg) (data : RespData) : CmdReg :=
  match data.guild_id with
  | some g =>
    if g != 0 then
      { c with command_ids := idSet c.command_ids (some g) data.id,
               guild_ids_to_rollout := rolloutAdd c.guild_ids_to_rollout g }
    else { c with command_ids := idSet c.command_ids none data.id }
  | none => { c with command_ids := idSet c.command_ids none data.id }

theorem idGet?_idSet_self (k : Option Int) (v : Int) :
    ∀ l, idGet? (idSet l k v) k = some v := by
  intro l
  induction l with
  | nil => simp [idSet, idGet?]
  | cons p tl ih =>
    rcases p with ⟨k2, v2⟩
    simp only [idSet]
    by_cases h : k2 = k
    · simp [idGet?, h]
    · rw [if_neg (by simpa using h)]
      simp only [idGet?]
      rw [if_neg (by simpa using h)]
      exact ih

theorem mem_rolloutAdd (l : List Int) (g : Int) : g ∈ rolloutAdd l g := by
  unfold rolloutAdd
  by_cases h : l.contains g
  · rw [if_pos (by simpa using h)]
    exact List.mem_of_elem_eq_true h
  · rw [if_neg (by simpa using h)]
    simp

/-- Claim C10: processing an acknowledgment with a (truthy) guild scope id
records the remote id for that guild *and*, as a side effect, adds the
guild to the command's rollout scope set; only the global case leaves the
scope binding unchanged. -/
theorem C10_ack_mutates_scope (c : CmdReg) (data : RespData) :
    (∀ g, data.guild_id = some g → g ≠ 0 →
      idGet? (parse_discord_response c data).command_ids (some g) = some data.id
        ∧ g ∈ (parse_discord_response c data).guild_ids_to_rollout
        ∧ (parse_discord_response c data).options = c.options)
    ∧ (data.guild_id = none →
      idGet? (parse_discord_response c data).command_ids none = some data.id
        ∧ (parse_discord_response c data).guild_ids_to_rollout
            = c.guild_ids_to_rollout
        ∧ (parse_discord_response c data).options = c.options) := by
  constructor
  · intro g hg hg0
    simp only [parse_discord_response, hg]
    rw [if_pos (by simpa using hg0)]
    exact ⟨idGet?_idSet_self _ _ _, mem_rolloutAdd _ _, rfl⟩
  · intro hg
    simp only [parse_discord_response, hg]
    refine ⟨idGet?_idSet_self _ _ _, ?_, ?_⟩ <;> trivial

/-- Witness for C10: a concrete guild acknowledgment and a concrete global
acknowledgment. -/
theorem C10_ack_mutates_scope_witness :
    (idGet? (parse_discord_response ⟨[], [], []⟩ ⟨99, some 5⟩).command_ids (some 5)
        = some 99
      ∧ (5 : Int) ∈ (parse_discord_response ⟨[], [], []⟩ ⟨99, some 5⟩).guild_ids_to_rollout)
    ∧ (parse_discord_response ⟨[], [], []⟩ ⟨42, none⟩).guild_ids_to_rollout = [] :=
  ⟨⟨((C10_ack_mutates_scope ⟨[], [], []⟩ ⟨99, some 5⟩).1 5 rfl (by decide)).1,
    ((C10_ack_mutates_scope ⟨[], [], []⟩ ⟨99, some 5⟩).1 5 rfl (by decide)).2.1⟩,
   ((C10_ack_mutates_scope ⟨[], [], []⟩ ⟨42, none⟩).2 rfl).2.1⟩

/-! ## Concurrency-gated preparation
(source: `ext/application_checks/core.py`, `ApplicationChecksCommand.prepare`,
lines 210-232) -/

/-- The observable steps of `prepare`: the check evaluation, a successful
slot acquisition on the command's max-concurrency gate, the cooldown
check, argument parsing, the before-invoke hooks, and the slot release.
The command has a single `_max_concurrency` gate, so acquire and release
always address the same bucket object. -/
inductive PEv where
  | canRunEv
  | slotAcquired
  | cooldownEv
  | parseEv
  | beforeHooksEv
  | slotReleased
deriving DecidableEq

/-- The per-invocation behaviour `prepare` observes: the `can_run`
outcome, whether a max-concurrency gate is configured, whether `acquire`
raises (`MaxConcurrencyReached` — no slot is held then), whether the
cooldown check, argument parsing or the before-invoke hooks raise, and the
`cooldown_after_parsing` flag. -/
structure PrepCfg where
  canRun : Except Exc Bool
  hasMaxConcurrency : Bool
  acquireRaises : Option Exc
  cooldownRaises : Option Exc
  parseRaises : Option Exc
  beforeHooksRaise : Option Exc
  cooldown_after_parsing : Bool

/-- Run one step of the `try` block: record it, stop on its exception. -/
def seqStep (ev : PEv) (r : Option Exc) (next : List PEv × Option Exc) :
    List PEv × Option Exc :=
  match r with
  | some e => ([ev], some e)
  | none => (ev :: next.1, next.2)

/-- The `try` body (lines 220-228): cooldown check and argument parsing in
the order selected by `cooldown_after_parsing`, then the before-invoke
hooks. -/
def tryBody (cfg : PrepCfg) : List PEv × Option Exc :=
  if cfg.cooldown_after_parsing then
    seqStep .parseEv cfg.parseRaises
      (seqStep .cooldownEv cfg.cooldownRaises
        (seqStep .beforeHooksEv cfg.beforeHooksRaise ([], none)))
  else
    seqStep .cooldownEv cfg.cooldownRaises
      (seqStep .parseEv cfg.parseRaises
        (seqStep .beforeHooksEv cfg.beforeHooksRaise ([], none)))

/-- Source `prepare` (lines 210-232): a failing `can_run` raises before
anything else; then the concurrency slot is acquired when a gate is
configured; the `try` body runs, and its bare `except:` releases the slot
(when a gate is configured) before re-raising. -/
def prepare (cfg : PrepCfg) : List PEv × Option Exc :=
  match cfg.canRun with
  | .error e => ([.canRunEv], some e)
  | .ok false => ([.canRunEv], some (.appCheckFailure .command))
  | .ok true =>
    if cfg.hasMaxConcurrency then
      match cfg.acquireRaises with
      | some e => ([.canRunEv], some e)
      | none =>
        match tryBody cfg with
        | (tr, some e) => (.canRunEv :: .slotAcquired :: (tr ++ [.slotReleased]), some e)
        | (tr, none) => (.canRunEv :: .slotAcquired :: tr, none)
    else
      match tryBody cfg with
      | (tr, r) => (.canRunEv :: tr, r)

/-- Claim C9: on every failing preparation, a held concurrency slot is
released — `slotAcquired` occurs in the trace iff `slotReleased` does,
exactly once each, with the release as the final step before the exception
propagates; a successful preparation keeps the slot (no release), pairing
acquire/release with the invocation instead. -/
theorem C9_acquire_release_paired (cfg : PrepCfg) :
    (∀ e, (prepare cfg).2 = some e →
      (PEv.slotAcquired ∈ (prepare cfg).1 ↔ PEv.slotReleased ∈ (prepare cfg).1)
        ∧ (PEv.slotAcquired ∈ (prepare cfg).1 →
            (prepare cfg).1.getLast? = some PEv.slotReleased
              ∧ (prepare cfg).1.count PEv.slotAcquired = 1
              ∧ (prepare cfg).1.count PEv.slotReleased = 1))
    ∧ ((prepare cfg).2 = none → PEv.slotReleased ∉ (prepare cfg).1) := by
  rcases cfg with ⟨cr, hmc, ar, cdr, pr, bhr, cap⟩
  rcases cr with e | b
  · constructor
    · intro e' _
      refine ⟨by simp [prepare], ?_⟩
      intro h
      simp [prepare] at h
    · intro h
      simp [prepare] at h
  · cases b
    · constructor
      · intro e' _
        refine ⟨by simp [prepare], ?_⟩
        intro h
        simp [prepare] at h
      · intro h
        simp [prepare] at h
    · cases hmc <;> cases ar <;> cases cap <;> cases cdr <;> cases pr <;> cases bhr <;>
        constructor <;> intro <;>
          simp_all [prepare, tryBody, seqStep, List.getLast?, List.count_cons]

/-- A configuration whose argument parsing fails after the slot was
acquired. -/
def C9cfg : PrepCfg := ⟨.ok true, true, none, none, some (.userExc 1), none, false⟩

/-- Witness for C9: with parsing failing after acquisition, the concrete
trace acquires, runs the cooldown check, fails parsing, and releases last;
the pairing facts follow by applying the theorem. -/
theorem C9_acquire_release_paired_witness :
    prepare C9cfg
      = ([.canRunEv, .slotAcquired, .cooldownEv, .parseEv, .slotReleased],
         some (.userExc 1))
    ∧ (prepare C9cfg).1.getLast? = some PEv.slotReleased := by
  refine ⟨rfl, ?_⟩
  exact (((C9_acquire_release_paired C9cfg).1 (.userExc 1) rfl).2 (by decide)).1

end Nextcord
